import Mathlib

/-!
Shallow embedding of `velox/experimental/wave/exec/ExprKernel.cu`: the fused
interpreter kernel (`waveBaseKernel`), the stepping driver
(`WaveKernelStream::callOne` / `call`), instruction shared-memory sizing
(`instructionSharedMemory`), and aggregation setup (`setupAggregationKernel`,
`WaveKernelStream::setupAggregation`).

The per-opcode device kernels (`filterKernel`, `wrapKernel`, `aggregateKernel`,
`readAggregateKernel`, `binaryOpKernel`) live in headers outside this file and
are external collaborators: they are modelled as an abstract record of state
transformers (`ExternalKernels`), applied to an opaque per-block state `S`.
The `PROGRAM_PREAMBLE`/`PROGRAM_EPILOGUE` macros (load/store of the per-block
state) are absorbed into that per-block state threading.
-/

namespace Wave

/-- Opcode enum. The enum itself is declared in `ExprKernel.h`, which is not
part of the sources; the members below are the ones `ExprKernel.cu` names.
Modelled from the spec: the opcode enum is closed but may contain further
type/operator pairs beyond the ones this translation unit dispatches on;
`kOther n` stands for any such additional member. -/
inductive OpCode where
  | kReturn
  | kFilter
  | kWrap
  | kAggregate
  | kReadAggregate
  | kPlus_BIGINT
  | kLT_BIGINT
  | kOther (n : Nat)
deriving DecidableEq, Repr

/-- One instruction: a tagged union keyed by the opcode. The union payload
(`_.binary`, `_.filter`, `_.wrap`, `_.aggregate`) is abstracted to an opaque
word `payload`; the external kernels receive it unchanged. -/
structure Instruction where
  opCode : OpCode
  payload : Nat
deriving DecidableEq, Repr

/-- Default instruction used for (undefined-behavior) out-of-range reads. -/
def defaultIns : Instruction := ⟨OpCode.kReturn, 0⟩

/-- The external per-opcode device kernels, as abstract transformers of the
per-block state `S`. `binaryOpKernel` additionally receives the C++ lambda
(the operator), as in the source. -/
structure ExternalKernels (S : Type) where
  filterKernel : Nat → S → S
  wrapKernel : Nat → S → S
  aggregateKernel : Nat → S → S
  readAggregateKernel : Nat → S → S
  binaryOpKernel : (Int → Int → Int) → Nat → S → S

/-- `instructionSharedMemory` (ExprKernel.cu:99-107), parameterized by
`sizeof(WaveShared)`, `kBlockSize` and `kWarpThreads` (values live in headers
outside the sources); `sizeof(int32_t) = 4`. -/
def instructionSharedMemory (sizeofWaveShared kBlockSize kWarpThreads : Nat)
    (instruction : Instruction) : Nat :=
  match instruction.opCode with
  | OpCode.kFilter =>
      sizeofWaveShared + (2 + kBlockSize / kWarpThreads) * 4
  | _ => sizeofWaveShared

/-! ## Aggregation setup (ExprKernel.cu:202-236) -/

/-- `AggregationControl`: declared in a header outside the sources.
Modelled from the spec: describes either "initialize a new aggregation state"
(row size, destination pointer `head`) or "rehash" (old bucket array pointer
and count); `oldBuckets` is a possibly-null pointer. Addresses are `Nat`. -/
structure AggregationControl where
  oldBuckets : Option Nat
  numOldBuckets : Nat
  head : Nat
  rowSize : Nat

/-- Result `DeviceAggregation` header fields written by the initialize branch
of `setupAggregationKernel` (the struct layout lives in a header; only the
fields this file writes are modelled). -/
structure DeviceAggregationState where
  rowSize : Nat
  singleRow : Nat
deriving DecidableEq, Repr

/-- Initialize branch of `setupAggregationKernel` (ExprKernel.cu:210-214):
placement-new a `DeviceAggregation` at `op.head`, record the row size, point
`singleRow` at the storage immediately after the header (`data + 1`), and
`memset` that row to zero. Byte memory is a function `Nat → Nat`;
`sizeofDA` stands for `sizeof(DeviceAggregation)` (header, not in sources). -/
def setupAggregationKernelInit (sizeofDA : Nat) (op : AggregationControl)
    (mem : Nat → Nat) : DeviceAggregationState × (Nat → Nat) :=
  let singleRow := op.head + sizeofDA
  (⟨op.rowSize, singleRow⟩,
   fun a => if singleRow ≤ a ∧ a < singleRow + op.rowSize then 0 else mem a)

/-- Modelled from the spec: `roundUp` is defined in a header outside the
sources; it rounds `value` up to the nearest multiple of `factor`
(`(value + factor - 1) / factor * factor`). -/
def roundUp (value factor : Nat) : Nat :=
  (value + factor - 1) / factor * factor

/-- Launch configuration `(numBlocks, numThreads)` computed by
`WaveKernelStream::setupAggregation` (ExprKernel.cu:217-228): defaults
`(1, 1)`; in rehash mode (`op.oldBuckets` set) one thread per bucket with the
block count clamped to 640. `kBlockSize` is a header constant, passed in. -/
def setupAggregationConfig (kBlockSize : Nat) (op : AggregationControl) :
    Nat × Nat :=
  match op.oldBuckets with
  | some _ => (min (roundUp op.numOldBuckets kBlockSize / kBlockSize) 640,
               kBlockSize)
  | none => (1, 1)

/-! ## Fused interpreter kernel `waveBaseKernel` (ExprKernel.cu:65-97) -/

/-- One arm of the fused interpreter's dispatch switch, applied to the
instruction the block's program counter points at. `kReturn` is handled by
the enclosing loop; an opcode with no `case` falls out of the `switch`
unchanged (there is no `default:`). The `BINARY_TYPES` cases pass the
operator lambda to `binaryOpKernel` exactly as the macro expansion does
(`<` modelled as the 0/1-valued integer comparison the C++ bool converts to). -/
def fusedDispatch {S : Type} (K : ExternalKernels S) (ins : Instruction)
    (s : S) : S :=
  match ins.opCode with
  | OpCode.kFilter => K.filterKernel ins.payload s
  | OpCode.kWrap => K.wrapKernel ins.payload s
  | OpCode.kAggregate => K.aggregateKernel ins.payload s
  | OpCode.kReadAggregate => K.readAggregateKernel ins.payload s
  | OpCode.kPlus_BIGINT => K.binaryOpKernel (fun left right => left + right) ins.payload s
  | OpCode.kLT_BIGINT =>
      K.binaryOpKernel (fun left right => if left < right then 1 else 0) ins.payload s
  | _ => s

/-- The fused interpreter loop of `waveBaseKernel`, for one block: fetch the
current instruction, stop on `kReturn`, otherwise dispatch and advance
(`++instruction`). The instruction stream is the block's program; running off
the end of a program with no `kReturn` terminator is undefined behavior in the
source and returns the current state here. -/
def waveBaseKernelRun {S : Type} (K : ExternalKernels S) :
    List Instruction → S → S
  | [], s => s
  | ins :: rest, s =>
      if ins.opCode = OpCode.kReturn then s
      else waveBaseKernelRun K rest (fusedDispatch K ins s)

/-- `KernelParams`: block-to-program map, program pointers, and the optional
per-program resume-point array (`int32_t* startPC`, `none` = null). The
operand bindings of the real struct are absorbed into the per-block states.
The `programIdx` list models the first `numBlocks` entries of the array, so
`numBlocks = programIdx.length`. -/
structure KernelParams where
  programIdx : List Nat
  programs : List (List Instruction)
  startPC : Option (List Int)

/-- The program of block `b`: `params.programs[params.programIdx[b]]`
(as read by `PROGRAM_PREAMBLE`; out-of-range reads are undefined behavior and
default here). -/
def progOf (params : KernelParams) (b : Nat) : List Instruction :=
  params.programs.getD (params.programIdx.getD b 0) []

/-- `waveBaseKernel` launched over `numBlocks` blocks, with one abstract state
per block index: each block runs its own program's fused loop; blocks outside
the launch grid are untouched. -/
def waveBaseKernelGrid {S : Type} (K : ExternalKernels S)
    (params : KernelParams) (numBlocks : Nat) (st : Nat → S) : Nat → S :=
  fun b => if b < numBlocks then waveBaseKernelRun K (progOf params b) (st b)
           else st b

/-! ## Stepping driver `WaveKernelStream::callOne` (ExprKernel.cu:109-179) -/

/-- The five single-opcode kernels the stepping driver can launch via
`CALL_ONE`: `oneFilter`, `oneAggregate`, `oneReadAggregate`, `onePlusBigint`,
`oneLt<int64_t>`. -/
inductive OneKernel where
  | filter
  | aggregate
  | readAggregate
  | plusBigint
  | ltBigint
deriving DecidableEq, Repr

/-- Effect of one single-opcode kernel on one block's state, given the
instruction at the launched `pc` in that block's program. `oneAggregate` and
`oneLt<int64_t>` are defined in ExprKernel.cu and call `aggregateKernel` /
`binaryOpKernel` with the same arguments as the fused switch; `oneFilter`,
`oneReadAggregate` and `onePlusBigint` are only declared there. Modelled from
the spec: each single-opcode kernel performs the identical preamble/epilogue
as the fused kernel and executes exactly the one instruction at its `pc`
through the same per-opcode device function. -/
def applyOne {S : Type} (K : ExternalKernels S) (k : OneKernel)
    (ins : Instruction) (s : S) : S :=
  match k with
  | OneKernel.filter => K.filterKernel ins.payload s
  | OneKernel.aggregate => K.aggregateKernel ins.payload s
  | OneKernel.readAggregate => K.readAggregateKernel ins.payload s
  | OneKernel.plusBigint => K.binaryOpKernel (fun left right => left + right) ins.payload s
  | OneKernel.ltBigint =>
      K.binaryOpKernel (fun left right => if left < right then 1 else 0) ins.payload s

/-- Host-visible events of one `WaveKernelStream::call` invocation: a
`CALL_ONE` single-opcode launch (kernel, pc, block-range base), the fused
`waveBaseKernel` launch, or a host-blocking `wait()`. -/
inductive Event where
  | launchOne (k : OneKernel) (pc : Nat) (base : Nat)
  | launchFused (numBlocks : Nat)
  | hostWait
deriving DecidableEq, Repr

/-- `blocksPerExe` computation (ExprKernel.cu:124-130): the length of the
initial run of equal values in `programIdx` (bounded by `numBlocks`). For an
empty launch the C++ reads `programIdx[0]` out of range; the count is 0. -/
def blocksPerExe (idx : List Nat) : Nat :=
  (idx.takeWhile (fun x => x == idx.getD 0 0)).length

/-- Number of program groups visited by the reconstruction loop
`for (i = 0; i < numBlocks; i += blocksPerExe)`. -/
def numGroups (numBlocks bpe : Nat) : Nat :=
  if bpe = 0 then 0 else (numBlocks + bpe - 1) / bpe

/-- The instructions of a program up to (excluding) its `kReturn` terminator,
as scanned by the reconstruction loop (ExprKernel.cu:135-138). -/
def programBody (p : List Instruction) : List Instruction :=
  p.takeWhile (fun i => decide (i.opCode ≠ OpCode.kReturn))

/-- Whether a program contains the `kReturn` terminator the scan loops rely
on (the compiled-program input contract). -/
def isReturnTerminated (p : List Instruction) : Bool :=
  p.any (fun i => i.opCode == OpCode.kReturn)

/-- The opcode sequence reconstructed for group `g`: the code walks
`params.programs[programs.size()]`, i.e. the group-ordinal-th program, not
the program `programIdx` assigns to the group's blocks. -/
def reconOps (params : KernelParams) (g : Nat) : List OpCode :=
  (programBody (params.programs.getD g [])).map (fun i => i.opCode)

/-- Fuel-driven replay scan of one group's reconstructed opcode list from
`pc`: the launches `(kernel, pc)` issued by the loop at ExprKernel.cu:154-176.
`kFilter` launches `oneFilter` and advances `pc` one extra slot; the four
other handled opcodes launch their kernel and advance one slot; any other
opcode hits `default: assert(false)`, modelled as failure (`none`). The fuel
only makes the recursion structural; `replayFrom` supplies enough. -/
def replayFromFuel (ops : List OpCode) : Nat → Nat → Option (List (OneKernel × Nat))
  | 0, _pc => some []
  | fuel + 1, pc =>
    match ops[pc]? with
    | none => some []
    | some op =>
      match op with
      | OpCode.kFilter =>
          (replayFromFuel ops fuel (pc + 2)).map (fun l => (OneKernel.filter, pc) :: l)
      | OpCode.kAggregate =>
          (replayFromFuel ops fuel (pc + 1)).map (fun l => (OneKernel.aggregate, pc) :: l)
      | OpCode.kReadAggregate =>
          (replayFromFuel ops fuel (pc + 1)).map (fun l => (OneKernel.readAggregate, pc) :: l)
      | OpCode.kPlus_BIGINT =>
          (replayFromFuel ops fuel (pc + 1)).map (fun l => (OneKernel.plusBigint, pc) :: l)
      | OpCode.kLT_BIGINT =>
          (replayFromFuel ops fuel (pc + 1)).map (fun l => (OneKernel.ltBigint, pc) :: l)
      | _ => none

/-- The launches the stepping driver issues for one group, scanning its
reconstructed opcode list from `pc` (`none` = fatal `assert(false)`). -/
def replayFrom (ops : List OpCode) (pc : Nat) : Option (List (OneKernel × Nat)) :=
  replayFromFuel ops (ops.length - pc) pc

/-- The starting instruction index for group `g` (ExprKernel.cu:144-148):
`0` when `startPC` is null, else `startPC[g]` (an `int32_t`; reads past the
array are undefined behavior and default to 0). -/
def groupStart (startPC : Option (List Int)) (g : Nat) : Int :=
  match startPC with
  | none => 0
  | some arr => arr.getD g 0

/-- Effect on the grid of one `CALL_ONE` launch of kernel `k` at `pc` over
the `bpe` blocks starting at `base`: each block in range applies the kernel
to the instruction at `pc` of its own program (the device side re-derives the
block's program from `programIdx`); all other blocks are untouched. -/
def launchUpdate {S : Type} (K : ExternalKernels S) (params : KernelParams)
    (k : OneKernel) (pc base bpe : Nat) (st : Nat → S) : Nat → S :=
  fun b =>
    if base ≤ b ∧ b < base + bpe then
      applyOne K k ((progOf params b).getD pc defaultIns) (st b)
    else st b

/-- Apply a group's launch list in order. -/
def runLaunches {S : Type} (K : ExternalKernels S) (params : KernelParams)
    (base bpe : Nat) (L : List (OneKernel × Nat)) (st : Nat → S) : Nat → S :=
  L.foldl (fun st kp => launchUpdate K params kp.1 kp.2 base bpe st) st

/-- Result of a completed `callOne`: the final value of the caller's
`params.startPC` field, the per-block states, and the host-visible event
trace. -/
structure CallOneResult (S : Type) where
  startPC : Option (List Int)
  states : Nat → S
  trace : List Event

/-- The per-group loop of `callOne` (ExprKernel.cu:140-178) over the list of
`(group ordinal, reconstructed opcodes)` pairs, threading the mutable
`params.startPC` field, the block states and the event trace. Each iteration
first restores `params.startPC = initialStartPC`; a group whose start is the
`~0` sentinel is skipped (`continue`) before the trailing
`params.startPC = nullptr`; a negative non-sentinel start skips the launch
loop (the `pc < program.size()` comparison promotes `pc` to unsigned) but
still nulls `startPC`; otherwise the replayed launches are issued and
`startPC` is nulled. A replay failure is the fatal `assert(false)`. -/
def runGroups {S : Type} (K : ExternalKernels S) (params : KernelParams)
    (initial : Option (List Int)) (bpe : Nat) :
    List (Nat × List OpCode) → Option (List Int) → (Nat → S) → List Event →
    Option (CallOneResult S)
  | [], sp, st, tr => some ⟨sp, st, tr⟩
  | (g, ops) :: rest, _sp, st, tr =>
    let start := groupStart initial g
    if start = -1 then
      runGroups K params initial bpe rest initial st tr
    else if start < 0 then
      runGroups K params initial bpe rest none st tr
    else
      match replayFrom ops start.toNat with
      | none => none
      | some L =>
          runGroups K params initial bpe rest none
            (runLaunches K params (g * bpe) bpe L st)
            (tr ++ L.map (fun kp => Event.launchOne kp.1 kp.2 (g * bpe)))

/-- The `(group ordinal, reconstructed opcodes)` list for groups
`g0, g0+1, ..., g0+n-1`. -/
def groupsFrom (recon : Nat → List OpCode) : Nat → Nat → List (Nat × List OpCode)
  | _g, 0 => []
  | g, n + 1 => (g, recon g) :: groupsFrom recon (g + 1) n

/-- `WaveKernelStream::callOne`: derive `blocksPerExe`, reconstruct each
group's opcode list, then replay every group. -/
def steppingCallOne {S : Type} (K : ExternalKernels S) (params : KernelParams)
    (st : Nat → S) : Option (CallOneResult S) :=
  let numBlocks := params.programIdx.length
  let bpe := blocksPerExe params.programIdx
  runGroups K params params.startPC bpe
    (groupsFrom (reconOps params) 0 (numGroups numBlocks bpe))
    params.startPC st []

/-- Result of `WaveKernelStream::call`: final states (for the stepping path;
for the fused path the eventual device-side result of the asynchronous
launch), the host-visible event trace, and the final `params.startPC`. -/
structure CallResult (S : Type) where
  states : Nat → S
  trace : List Event
  startPC : Option (List Int)

/-- `WaveKernelStream::call` (ExprKernel.cu:181-198): under
`FLAGS_kernel_gdb` it runs `callOne` and then blocks once on
`(alias ? alias : this)->wait()`; otherwise it issues the single asynchronous
`waveBaseKernel` launch and returns. -/
def waveKernelStreamCall {S : Type} (K : ExternalKernels S) (kernelGdb : Bool)
    (params : KernelParams) (st : Nat → S) : Option (CallResult S) :=
  if kernelGdb then
    (steppingCallOne K params st).map
      (fun r => ⟨r.states, r.trace ++ [Event.hostWait], r.startPC⟩)
  else
    some ⟨waveBaseKernelGrid K params params.programIdx.length st,
          [Event.launchFused params.programIdx.length], params.startPC⟩

/-- A concrete instantiation of the external kernels over trace states
(`S = List Nat`), used to evaluate the embedding at concrete inputs: each
kernel appends a tag encoding which kernel ran, with which operator result
and payload. -/
def demoKernels : ExternalKernels (List Nat) where
  filterKernel p s := s ++ [100 + p]
  wrapKernel p s := s ++ [200 + p]
  aggregateKernel p s := s ++ [300 + p]
  readAggregateKernel p s := s ++ [400 + p]
  binaryOpKernel f p s := s ++ [(f 2 1).toNat * 1000 + p]

/-! ## Basic lemmas about the replay scan -/

/-- The fuel argument of `replayFromFuel` is irrelevant once it covers the
remaining scan length. -/
theorem replayFromFuel_congr (ops : List OpCode) :
    ∀ f1, ∀ f2, ∀ pc, ops.length - pc ≤ f1 → ops.length - pc ≤ f2 →
      replayFromFuel ops f1 pc = replayFromFuel ops f2 pc := by
  intro f1
  induction f1 with
  | zero =>
    intro f2 pc h1 _h2
    have hn : ops[pc]? = none := by
      apply List.getElem?_eq_none
      omega
    cases f2 with
    | zero => rfl
    | succ f2 => simp [replayFromFuel, hn]
  | succ f1 ih =>
    intro f2 pc h1 h2
    cases f2 with
    | zero =>
      have hn : ops[pc]? = none := by
        apply List.getElem?_eq_none
        omega
      simp [replayFromFuel, hn]
    | succ f2 =>
      cases hop : ops[pc]? with
      | none => simp [replayFromFuel, hop]
      | some op =>
        have hlt : pc < ops.length := by
          by_contra hge
          rw [List.getElem?_eq_none (by omega)] at hop
          exact Option.noConfusion hop
        cases op <;>
          simp only [replayFromFuel, hop] <;>
          rw [ih f2 _ (by omega) (by omega)]

/-- One-step unfolding of the replay scan, fuel hidden. -/
theorem replayFrom_eq (ops : List OpCode) (pc : Nat) :
    replayFrom ops pc =
      match ops[pc]? with
      | none => some []
      | some OpCode.kFilter =>
          (replayFrom ops (pc + 2)).map (fun l => (OneKernel.filter, pc) :: l)
      | some OpCode.kAggregate =>
          (replayFrom ops (pc + 1)).map (fun l => (OneKernel.aggregate, pc) :: l)
      | some OpCode.kReadAggregate =>
          (replayFrom ops (pc + 1)).map (fun l => (OneKernel.readAggregate, pc) :: l)
      | some OpCode.kPlus_BIGINT =>
          (replayFrom ops (pc + 1)).map (fun l => (OneKernel.plusBigint, pc) :: l)
      | some OpCode.kLT_BIGINT =>
          (replayFrom ops (pc + 1)).map (fun l => (OneKernel.ltBigint, pc) :: l)
      | some _ => none := by
  unfold replayFrom
  cases hop : ops[pc]? with
  | none =>
    cases hf : ops.length - pc with
    | zero => rfl
    | succ f => simp [replayFromFuel, hop]
  | some op =>
    have hlt : pc < ops.length := by
      by_contra hge
      rw [List.getElem?_eq_none (by omega)] at hop
      exact Option.noConfusion hop
    have hf : ops.length - pc = (ops.length - (pc + 1)) + 1 := by omega
    rw [hf]
    cases op with
    | kFilter =>
      simp only [replayFromFuel, hop]
      rw [replayFromFuel_congr ops (ops.length - (pc + 1)) (ops.length - (pc + 2))
        (pc + 2) (by omega) (by omega)]
    | _ => simp only [replayFromFuel, hop]

/-! ## Claim theorems: sizing and aggregation -/

/-- Claim C6: `instructionSharedMemory` returns
`sizeof(WaveShared) + (2 + kBlockSize / kWarpThreads) * sizeof(int32_t)` for a
`Filter` instruction and exactly `sizeof(WaveShared)` for every other opcode,
and the result depends only on the opcode, never on the payload. -/
theorem c6_instructionSharedMemory (sws kbs kwt : Nat) (ins : Instruction) :
    (ins.opCode = OpCode.kFilter →
      instructionSharedMemory sws kbs kwt ins = sws + (2 + kbs / kwt) * 4) ∧
    (ins.opCode ≠ OpCode.kFilter →
      instructionSharedMemory sws kbs kwt ins = sws) ∧
    (∀ j : Instruction, j.opCode = ins.opCode →
      instructionSharedMemory sws kbs kwt j =
        instructionSharedMemory sws kbs kwt ins) := by
  refine ⟨fun h => by simp [instructionSharedMemory, h], fun h => ?_, fun j hj => ?_⟩
  · unfold instructionSharedMemory
    cases hc : ins.opCode <;> simp_all
  · unfold instructionSharedMemory
    rw [hj]

/-- Witness for C6 at a concrete filter instruction and a concrete non-filter
instruction sharing an opcode with a different payload. -/
theorem c6_witness :
    (Instruction.mk OpCode.kFilter 7).opCode = OpCode.kFilter ∧
    instructionSharedMemory 96 256 32 ⟨OpCode.kFilter, 7⟩ = 96 + (2 + 256 / 32) * 4 ∧
    instructionSharedMemory 96 256 32 ⟨OpCode.kWrap, 3⟩ = 96 ∧
    instructionSharedMemory 96 256 32 ⟨OpCode.kFilter, 99⟩ =
      instructionSharedMemory 96 256 32 ⟨OpCode.kFilter, 7⟩ := by
  refine ⟨rfl, ?_, ?_, ?_⟩
  · exact (c6_instructionSharedMemory 96 256 32 ⟨OpCode.kFilter, 7⟩).1 rfl
  · exact (c6_instructionSharedMemory 96 256 32 ⟨OpCode.kWrap, 3⟩).2.1 (by decide)
  · exact (c6_instructionSharedMemory 96 256 32 ⟨OpCode.kFilter, 7⟩).2.2 ⟨OpCode.kFilter, 99⟩ rfl

/-- Claim C7: initialize mode of `setupAggregationKernel` records `rowSize`,
points `singleRow` immediately after the `DeviceAggregation` header, zeroes
exactly the `rowSize` bytes of the single accumulator row, and is launched
with a single thread in a single block. -/
theorem c7_setupAggregationInit (sizeofDA kbs : Nat) (op : AggregationControl)
    (mem : Nat → Nat) (h : op.oldBuckets = none) :
    (setupAggregationKernelInit sizeofDA op mem).1.rowSize = op.rowSize ∧
    (setupAggregationKernelInit sizeofDA op mem).1.singleRow = op.head + sizeofDA ∧
    (∀ i, i < op.rowSize →
      (setupAggregationKernelInit sizeofDA op mem).2 (op.head + sizeofDA + i) = 0) ∧
    (∀ a, a < op.head + sizeofDA →
      (setupAggregationKernelInit sizeofDA op mem).2 a = mem a) ∧
    setupAggregationConfig kbs op = (1, 1) := by
  refine ⟨rfl, rfl, fun i hi => ?_, fun a ha => ?_, ?_⟩
  · simp only [setupAggregationKernelInit]
    rw [if_pos (by omega)]
  · simp only [setupAggregationKernelInit]
    rw [if_neg (by omega)]
  · simp [setupAggregationConfig, h]

/-- Witness for C7 with row size 3 at header size 16, over memory all-ones. -/
theorem c7_witness :
    (setupAggregationKernelInit 16 ⟨none, 0, 100, 3⟩ (fun _ => 1)).1.rowSize = 3 ∧
    (setupAggregationKernelInit 16 ⟨none, 0, 100, 3⟩ (fun _ => 1)).1.singleRow = 100 + 16 ∧
    (∀ i, i < 3 →
      (setupAggregationKernelInit 16 ⟨none, 0, 100, 3⟩ (fun _ => 1)).2 (100 + 16 + i) = 0) ∧
    (∀ a, a < 100 + 16 →
      (setupAggregationKernelInit 16 ⟨none, 0, 100, 3⟩ (fun _ => 1)).2 a = 1) ∧
    setupAggregationConfig 256 ⟨none, 0, 100, 3⟩ = (1, 1) :=
  c7_setupAggregationInit 16 256 ⟨none, 0, 100, 3⟩ (fun _ => 1) rfl

/-- Claim C8: in rehash mode `setupAggregation` launches `kBlockSize` threads
per block and `ceil(numOldBuckets / kBlockSize)` blocks clamped from above to
640; exceeding the cap is silently clamped, not an error. -/
theorem c8_rehashLaunchConfig (kbs : Nat) (op : AggregationControl) (x : Nat)
    (hb : op.oldBuckets = some x) (hk : 0 < kbs) :
    setupAggregationConfig kbs op =
      (min ((op.numOldBuckets + kbs - 1) / kbs) 640, kbs) ∧
    (640 < (op.numOldBuckets + kbs - 1) / kbs →
      (setupAggregationConfig kbs op).1 = 640) := by
  have hcfg : setupAggregationConfig kbs op =
      (min ((op.numOldBuckets + kbs - 1) / kbs) 640, kbs) := by
    simp only [setupAggregationConfig, hb, roundUp]
    rw [Nat.mul_div_cancel _ hk]
  refine ⟨hcfg, fun hgt => ?_⟩
  rw [hcfg]
  simp only
  omega

/-- Witness for C8: 10 buckets at block size 4 give 3 blocks; 10000 buckets
at block size 4 would need 2500 blocks and are clamped to 640. -/
theorem c8_witness :
    setupAggregationConfig 4 ⟨some 1, 10, 0, 8⟩ = (min ((10 + 4 - 1) / 4) 640, 4) ∧
    (setupAggregationConfig 4 ⟨some 1, 10000, 0, 8⟩).1 = 640 := by
  constructor
  · exact (c8_rehashLaunchConfig 4 ⟨some 1, 10, 0, 8⟩ 1 rfl (by decide)).1
  · exact (c8_rehashLaunchConfig 4 ⟨some 1, 10000, 0, 8⟩ 1 rfl (by decide)).2 (by decide)

/-! ## Claim C10: unrecognized opcodes -/

/-- Claim C10: an instruction whose opcode is outside the fused switch's
cases is a no-op in `waveBaseKernel` — the dispatch leaves the state
unchanged and the loop advances past it — while the stepping driver's replay
hits the fatal `default: assert(false)` on the same opcode. -/
theorem c10_unrecognizedOpcode {S : Type} (K : ExternalKernels S) (m : Nat)
    (ins : Instruction) (rest : List Instruction) (s : S)
    (ops : List OpCode) (pc : Nat)
    (h1 : ins.opCode = OpCode.kOther m)
    (h2 : ops[pc]? = some (OpCode.kOther m)) :
    fusedDispatch K ins s = s ∧
    waveBaseKernelRun K (ins :: rest) s = waveBaseKernelRun K rest s ∧
    replayFrom ops pc = none := by
  have hd : fusedDispatch K ins s = s := by
    simp [fusedDispatch, h1]
  refine ⟨hd, ?_, ?_⟩
  · rw [waveBaseKernelRun]
    rw [if_neg (by simp [h1]), hd]
  · rw [replayFrom_eq, h2]

/-- Witness for C10 on a concrete unknown-opcode instruction in the middle of
a concrete program. -/
theorem c10_witness :
    fusedDispatch demoKernels ⟨OpCode.kOther 9, 5⟩ ([] : List Nat) = [] ∧
    waveBaseKernelRun demoKernels
        [⟨OpCode.kOther 9, 5⟩, ⟨OpCode.kAggregate, 1⟩, ⟨OpCode.kReturn, 0⟩] [] =
      waveBaseKernelRun demoKernels [⟨OpCode.kAggregate, 1⟩, ⟨OpCode.kReturn, 0⟩] [] ∧
    replayFrom [OpCode.kOther 9, OpCode.kAggregate] 0 = none :=
  c10_unrecognizedOpcode demoKernels 9 ⟨OpCode.kOther 9, 5⟩
    [⟨OpCode.kAggregate, 1⟩, ⟨OpCode.kReturn, 0⟩] []
    [OpCode.kOther 9, OpCode.kAggregate] 0 rfl rfl

/-- A successful index read is in range. -/
theorem getElemQ_lt {α : Type} {l : List α} {i : Nat} {a : α}
    (h : l[i]? = some a) : i < l.length := by
  by_contra hge
  rw [List.getElem?_eq_none (by omega)] at h
  exact Option.noConfusion h

/-- The stepping driver's dispatch table: the single-opcode kernel launched
for an opcode and the program-counter increment applied over the whole loop
iteration (`++pc` for `kFilter` plus the loop's own `++pc`); `none` for the
`default: assert(false)` opcodes. -/
def stepKernel : OpCode → Option (OneKernel × Nat)
  | OpCode.kFilter => some (OneKernel.filter, 2)
  | OpCode.kAggregate => some (OneKernel.aggregate, 1)
  | OpCode.kReadAggregate => some (OneKernel.readAggregate, 1)
  | OpCode.kPlus_BIGINT => some (OneKernel.plusBigint, 1)
  | OpCode.kLT_BIGINT => some (OneKernel.ltBigint, 1)
  | _ => none

/-- Replay past the end of the opcode list stops. -/
theorem replayFrom_none {ops : List OpCode} {pc : Nat}
    (h : ops[pc]? = none) : replayFrom ops pc = some [] := by
  rw [replayFrom_eq, h]

/-- Replay at a handled opcode launches its kernel and advances by its
increment. -/
theorem replayFrom_step {ops : List OpCode} {pc : Nat} {op : OpCode}
    {k : OneKernel} {d : Nat} (hop : ops[pc]? = some op)
    (hsk : stepKernel op = some (k, d)) :
    replayFrom ops pc = (replayFrom ops (pc + d)).map (fun l => (k, pc) :: l) := by
  cases op <;> simp only [stepKernel] at hsk <;>
    try exact Option.noConfusion hsk
  all_goals
    obtain ⟨h1, h2⟩ := Prod.mk.injEq .. ▸ Option.some.inj hsk
    subst h1
    subst h2
    rw [replayFrom_eq, hop]

/-- Replay at an unhandled opcode is the fatal assertion. -/
theorem replayFrom_fail {ops : List OpCode} {pc : Nat} {op : OpCode}
    (hop : ops[pc]? = some op) (hsk : stepKernel op = none) :
    replayFrom ops pc = none := by
  cases op <;> simp only [stepKernel] at hsk <;>
    try exact Option.noConfusion hsk
  all_goals rw [replayFrom_eq, hop]

/-- A handled opcode advances by one or, for `kFilter`, by two. -/
theorem stepKernel_delta {op : OpCode} {k : OneKernel} {d : Nat}
    (h : stepKernel op = some (k, d)) : 1 ≤ d ∧ d ≤ 2 := by
  cases op <;> simp only [stepKernel] at h <;>
    try exact Option.noConfusion h
  all_goals
    obtain ⟨h1, h2⟩ := Prod.mk.injEq .. ▸ Option.some.inj h
    omega

/-- Every launch of a replay from `pc` targets a program counter in
`[pc, ops.length)`. -/
theorem replayFrom_mem_bounds (ops : List OpCode) : ∀ n, ∀ pc, ∀ L,
    ops.length - pc ≤ n → replayFrom ops pc = some L →
    ∀ kp ∈ L, pc ≤ kp.2 ∧ kp.2 < ops.length := by
  intro n
  induction n with
  | zero =>
    intro pc L hn hL kp hkp
    rw [replayFrom_none (List.getElem?_eq_none (by omega))] at hL
    injection hL with h
    subst h
    simp at hkp
  | succ n ih =>
    intro pc L hn hL kp hkp
    cases hop : ops[pc]? with
    | none =>
      rw [replayFrom_none hop] at hL
      injection hL with h
      subst h
      simp at hkp
    | some op =>
      have hlt : pc < ops.length := getElemQ_lt hop
      cases hsk : stepKernel op with
      | none =>
        rw [replayFrom_fail hop hsk] at hL
        exact Option.noConfusion hL
      | some kd =>
        rw [replayFrom_step hop hsk] at hL
        rcases Option.map_eq_some'.mp hL with ⟨l, hl, rfl⟩
        have hd := stepKernel_delta hsk
        rcases List.mem_cons.mp hkp with rfl | htail
        · exact ⟨le_refl _, hlt⟩
        · have := ih (pc + kd.2) l (by omega) hl kp htail
          exact ⟨by omega, this.2⟩

/-- Fuel-free wrapper for `replayFrom_mem_bounds`. -/
theorem replayFrom_memBounds {ops : List OpCode} {pc : Nat}
    {L : List (OneKernel × Nat)} (hL : replayFrom ops pc = some L) :
    ∀ kp ∈ L, pc ≤ kp.2 ∧ kp.2 < ops.length :=
  replayFrom_mem_bounds ops (ops.length - pc) pc L (le_refl _) hL

/-- A successful replay whose scan position is still in range launches at
that position first. -/
theorem replayFrom_head {ops : List OpCode} {pc : Nat}
    {L : List (OneKernel × Nat)} (hlt : pc < ops.length)
    (hL : replayFrom ops pc = some L) :
    ∃ k l, L = (k, pc) :: l := by
  have hop : ops[pc]? = some ops[pc] := List.getElem?_eq_getElem hlt
  cases hsk : stepKernel ops[pc] with
  | none =>
    rw [replayFrom_fail hop hsk] at hL
    exact Option.noConfusion hL
  | some kd =>
    rw [replayFrom_step hop hsk] at hL
    rcases Option.map_eq_some'.mp hL with ⟨l, _, rfl⟩
    exact ⟨kd.1, l, rfl⟩

/-- The launched kernel is `oneFilter` exactly for `kFilter`, which advances
the scan by two; every other handled opcode advances it by one. -/
theorem stepKernel_filter {op : OpCode} {k : OneKernel} {d : Nat}
    (h : stepKernel op = some (k, d)) :
    (k = OneKernel.filter ↔ op = OpCode.kFilter) ∧
    (op = OpCode.kFilter → d = 2) ∧ (op ≠ OpCode.kFilter → d = 1) := by
  cases op <;> simp only [stepKernel] at h <;>
    try exact Option.noConfusion h
  all_goals
    injection h with h
    injection h with h1 h2
    subst h1
    subst h2
    refine ⟨by simp, by simp, by simp⟩

/-- Core induction for claim C4: in a successful replay, a launch is an
`oneFilter` launch exactly when the opcode at its `pc` is `kFilter`; no
launch ever targets the slot right after a filter launch; a filter launch
still in range is followed by a launch at `pc + 2`, any other launch by one
at `pc + 1`. -/
theorem replayFrom_advance_aux (ops : List OpCode) : ∀ n, ∀ pc, ∀ L,
    ops.length - pc ≤ n → replayFrom ops pc = some L →
    (∀ kp ∈ L, (kp.1 = OneKernel.filter ↔ ops[kp.2]? = some OpCode.kFilter)) ∧
    (∀ kp ∈ L, kp.1 = OneKernel.filter → ∀ kp' ∈ L, kp'.2 ≠ kp.2 + 1) ∧
    (∀ kp ∈ L, kp.1 = OneKernel.filter → kp.2 + 2 < ops.length →
      ∃ k', (k', kp.2 + 2) ∈ L) ∧
    (∀ kp ∈ L, kp.1 ≠ OneKernel.filter → kp.2 + 1 < ops.length →
      ∃ k', (k', kp.2 + 1) ∈ L) := by
  intro n
  induction n with
  | zero =>
    intro pc L hn hL
    rw [replayFrom_none (List.getElem?_eq_none (by omega))] at hL
    injection hL with h
    subst h
    refine ⟨by simp, by simp, by simp, by simp⟩
  | succ n ih =>
    intro pc L hn hL
    cases hop : ops[pc]? with
    | none =>
      rw [replayFrom_none hop] at hL
      injection hL with h
      subst h
      refine ⟨by simp, by simp, by simp, by simp⟩
    | some op =>
      have hlt : pc < ops.length := getElemQ_lt hop
      cases hsk : stepKernel op with
      | none =>
        rw [replayFrom_fail hop hsk] at hL
        exact Option.noConfusion hL
      | some kd =>
        obtain ⟨k, d⟩ := kd
        rw [replayFrom_step hop hsk] at hL
        rcases Option.map_eq_some'.mp hL with ⟨l, hl, rfl⟩
        have hd := stepKernel_delta hsk
        have hkf := stepKernel_filter hsk
        have hbounds := replayFrom_memBounds hl
        obtain ⟨ih1, ih2, ih3, ih4⟩ := ih (pc + d) l (by omega) hl
        refine ⟨?_, ?_, ?_, ?_⟩
        · intro kp hkp
          rcases List.mem_cons.mp hkp with rfl | htail
          · simp only [hop]
            rw [hkf.1]
            constructor
            · intro h; rw [h]
            · intro h; exact Option.some.inj h
          · exact ih1 kp htail
        · intro kp hkp hf kp' hkp'
          rcases List.mem_cons.mp hkp with rfl | htail
          · have hopf : op = OpCode.kFilter := hkf.1.mp hf
            have hd2 : d = 2 := hkf.2.1 hopf
            rcases List.mem_cons.mp hkp' with rfl | htail'
            · simp
            · have := hbounds kp' htail'
              simp only
              omega
          · have hge := hbounds kp htail
            rcases List.mem_cons.mp hkp' with rfl | htail'
            · simp only
              omega
            · exact ih2 kp htail hf kp' htail'
        · intro kp hkp hf hrange
          rcases List.mem_cons.mp hkp with rfl | htail
          · have hopf : op = OpCode.kFilter := hkf.1.mp hf
            have hd2 : d = 2 := hkf.2.1 hopf
            subst hd2
            obtain ⟨k'', l'', rfl⟩ := replayFrom_head (by simpa using hrange) hl
            exact ⟨k'', by simp⟩
          · obtain ⟨k', hk'⟩ := ih3 kp htail hf hrange
            exact ⟨k', List.mem_cons_of_mem _ hk'⟩
        · intro kp hkp hf hrange
          rcases List.mem_cons.mp hkp with rfl | htail
          · have hopf : op ≠ OpCode.kFilter := fun h => hf (hkf.1.mpr h)
            have hd1 : d = 1 := hkf.2.2 hopf
            subst hd1
            obtain ⟨k'', l'', rfl⟩ := replayFrom_head (by simpa using hrange) hl
            exact ⟨k'', by simp⟩
          · obtain ⟨k', hk'⟩ := ih4 kp htail hf hrange
            exact ⟨k', List.mem_cons_of_mem _ hk'⟩

/-- Claim C4: in the stepping driver's replay, a `Filter` launch at `pc`
advances the program counter by two in total — the slot `pc + 1` is never
dispatched as its own launch, and the next launch (when one remains) is at
`pc + 2` — while every other dispatched opcode advances by exactly one, the
next launch being at `pc + 1`. A launch is an `oneFilter` launch exactly when
the opcode at its `pc` is `kFilter`. -/
theorem c4_filterAdvancesTwo (ops : List OpCode) (start : Nat)
    (L : List (OneKernel × Nat)) (hL : replayFrom ops start = some L) :
    (∀ kp ∈ L, (kp.1 = OneKernel.filter ↔ ops[kp.2]? = some OpCode.kFilter)) ∧
    (∀ kp ∈ L, kp.1 = OneKernel.filter → ∀ kp' ∈ L, kp'.2 ≠ kp.2 + 1) ∧
    (∀ kp ∈ L, kp.1 = OneKernel.filter → kp.2 + 2 < ops.length →
      ∃ k', (k', kp.2 + 2) ∈ L) ∧
    (∀ kp ∈ L, kp.1 ≠ OneKernel.filter → kp.2 + 1 < ops.length →
      ∃ k', (k', kp.2 + 1) ∈ L) :=
  replayFrom_advance_aux ops (ops.length - start) start L (le_refl _) hL

/-- Witness for C4 on the opcode list `[Filter, unknown-metadata, Aggregate,
Plus]` replayed from 0: launches are `(filter, 0), (aggregate, 2),
(plusBigint, 3)`; slot 1 is never launched. -/
theorem c4_witness :
    (∀ kp ∈ [(OneKernel.filter, 0), (OneKernel.aggregate, 2), (OneKernel.plusBigint, 3)],
      (kp.1 = OneKernel.filter ↔
        [OpCode.kFilter, OpCode.kOther 0, OpCode.kAggregate,
          OpCode.kPlus_BIGINT][kp.2]? = some OpCode.kFilter)) ∧
    (∀ kp ∈ [(OneKernel.filter, 0), (OneKernel.aggregate, 2), (OneKernel.plusBigint, 3)],
      kp.1 = OneKernel.filter →
      ∀ kp' ∈ [(OneKernel.filter, 0), (OneKernel.aggregate, 2), (OneKernel.plusBigint, 3)],
        kp'.2 ≠ kp.2 + 1) ∧
    (∀ kp ∈ [(OneKernel.filter, 0), (OneKernel.aggregate, 2), (OneKernel.plusBigint, 3)],
      kp.1 = OneKernel.filter → kp.2 + 2 < 4 →
      ∃ k', (k', kp.2 + 2) ∈
        [(OneKernel.filter, 0), (OneKernel.aggregate, 2), (OneKernel.plusBigint, 3)]) ∧
    (∀ kp ∈ [(OneKernel.filter, 0), (OneKernel.aggregate, 2), (OneKernel.plusBigint, 3)],
      kp.1 ≠ OneKernel.filter → kp.2 + 1 < 4 →
      ∃ k', (k', kp.2 + 1) ∈
        [(OneKernel.filter, 0), (OneKernel.aggregate, 2), (OneKernel.plusBigint, 3)]) := by
  have h := c4_filterAdvancesTwo
    [OpCode.kFilter, OpCode.kOther 0, OpCode.kAggregate, OpCode.kPlus_BIGINT] 0
    [(OneKernel.filter, 0), (OneKernel.aggregate, 2), (OneKernel.plusBigint, 3)]
    (by decide)
  exact h

/-! ## Fused/stepping parity for one program (claim C1 core) -/

/-- Opcodes with no `case` in the fused interpreter's switch: dispatching
them leaves the block state unchanged. -/
def fusedNoop : OpCode → Bool
  | OpCode.kOther _ => true
  | _ => false

/-- A program body (the instructions before `kReturn`) on which the stepping
replay and the fused interpreter agree by construction: every scanned opcode
is one the stepping driver dispatches, and the slot skipped after each
`kFilter` (when inside the body) holds an opcode the fused switch ignores. -/
def steppableOps : List OpCode → Bool
  | [] => true
  | OpCode.kFilter :: [] => true
  | OpCode.kFilter :: x :: rest => fusedNoop x && steppableOps rest
  | OpCode.kAggregate :: rest => steppableOps rest
  | OpCode.kReadAggregate :: rest => steppableOps rest
  | OpCode.kPlus_BIGINT :: rest => steppableOps rest
  | OpCode.kLT_BIGINT :: rest => steppableOps rest
  | _ => false

/-- The fused interpreter over a return-free instruction list, as a fold of
the dispatch switch. -/
def fusedRun {S : Type} (K : ExternalKernels S) (l : List Instruction) (s : S) : S :=
  l.foldl (fun s i => fusedDispatch K i s) s

/-- Sequential effect of a launch list on one block, reading each launch's
instruction from that block's program. -/
def stepEffect {S : Type} (K : ExternalKernels S) (p : List Instruction)
    (L : List (OneKernel × Nat)) (s : S) : S :=
  L.foldl (fun s kp => applyOne K kp.1 (p.getD kp.2 defaultIns) s) s

theorem stepEffect_cons {S : Type} (K : ExternalKernels S) (p : List Instruction)
    (k : OneKernel) (pc : Nat) (L : List (OneKernel × Nat)) (s : S) :
    stepEffect K p ((k, pc) :: L) s =
      stepEffect K p L (applyOne K k (p.getD pc defaultIns) s) := rfl

theorem fusedRun_cons {S : Type} (K : ExternalKernels S) (i : Instruction)
    (l : List Instruction) (s : S) :
    fusedRun K (i :: l) s = fusedRun K l (fusedDispatch K i s) := rfl

/-- Dispatching an opcode outside the fused switch's cases is the identity. -/
theorem fusedDispatch_noop {S : Type} (K : ExternalKernels S)
    (ins : Instruction) (s : S) (h : fusedNoop ins.opCode = true) :
    fusedDispatch K ins s = s := by
  cases hx : ins.opCode
  case kOther m => simp [fusedDispatch, hx]
  all_goals rw [hx] at h
  all_goals simp [fusedNoop] at h

/-- Each single-opcode kernel has the same per-opcode effect as the matching
case of the fused interpreter's switch. -/
theorem applyOne_eq_fusedDispatch {S : Type} (K : ExternalKernels S)
    {op : OpCode} {k : OneKernel} {d : Nat} (ins : Instruction) (s : S)
    (hsk : stepKernel op = some (k, d)) (hop : ins.opCode = op) :
    applyOne K k ins s = fusedDispatch K ins s := by
  cases op <;> simp only [stepKernel] at hsk <;>
    try exact Option.noConfusion hsk
  all_goals
    injection hsk with h
    injection h with h1 h2
    subst h1
    simp [applyOne, fusedDispatch, hop]

/-- Running the fused loop over a `kReturn`-terminated program is the fold of
the dispatch over its body. -/
theorem waveRun_eq_fusedRun {S : Type} (K : ExternalKernels S) :
    ∀ (p : List Instruction) (s : S), isReturnTerminated p = true →
      waveBaseKernelRun K p s = fusedRun K (programBody p) s := by
  intro p
  induction p with
  | nil => intro s h; exact absurd h (by simp [isReturnTerminated])
  | cons ins rest ih =>
    intro s h
    by_cases hr : ins.opCode = OpCode.kReturn
    · rw [waveBaseKernelRun, if_pos hr]
      simp [programBody, List.takeWhile_cons, hr, fusedRun]
    · rw [waveBaseKernelRun, if_neg hr]
      have hterm : isReturnTerminated rest = true := by
        simp only [isReturnTerminated, List.any_cons] at h
        rcases Bool.or_eq_true .. ▸ h with h1 | h2
        · exact absurd (by simpa using h1) hr
        · exact h2
      rw [ih _ hterm]
      have hbody : programBody (ins :: rest) = ins :: programBody rest := by
        simp [programBody, List.takeWhile_cons, hr]
      rw [hbody, fusedRun_cons]

/-- In range of the body, the body and the full program hold the same
instruction. -/
theorem programBody_getD (p : List Instruction) : ∀ i, i < (programBody p).length →
    (programBody p).getD i defaultIns = p.getD i defaultIns := by
  induction p with
  | nil => intro i hi; simp [programBody] at hi
  | cons ins rest ih =>
    intro i hi
    by_cases hr : ins.opCode = OpCode.kReturn
    · simp [programBody, List.takeWhile_cons, hr] at hi
    · have hbody : programBody (ins :: rest) = ins :: programBody rest := by
        simp [programBody, List.takeWhile_cons, hr]
      rw [hbody] at hi ⊢
      cases i with
      | zero => rfl
      | succ i =>
        simp only [List.getD_cons_succ]
        exact ih i (by simpa using hi)

/-- Core equivalence for claim C1, one program: on a steppable body, the
replay from any scan position succeeds and its launch list's sequential
effect equals the fused interpreter's run over the remaining body. -/
theorem replay_fused_aux {S : Type} (K : ExternalKernels S)
    (body : List Instruction) : ∀ n, ∀ pc, body.length - pc ≤ n →
    steppableOps ((body.map (fun i => i.opCode)).drop pc) = true →
    ∃ L, replayFrom (body.map (fun i => i.opCode)) pc = some L ∧
      ∀ s, stepEffect K body L s = fusedRun K (body.drop pc) s := by
  intro n
  induction n with
  | zero =>
    intro pc hn _hs
    refine ⟨[], replayFrom_none (List.getElem?_eq_none (by simp; omega)), fun s => ?_⟩
    rw [List.drop_eq_nil_of_le (by omega)]
    rfl
  | succ n ih =>
    intro pc hn hs
    by_cases hlt : pc < body.length
    case neg =>
      refine ⟨[], replayFrom_none (List.getElem?_eq_none (by simp; omega)), fun s => ?_⟩
      rw [List.drop_eq_nil_of_le (by omega)]
      rfl
    case pos =>
      have hlen : (body.map (fun i => i.opCode)).length = body.length := by simp
      have hop : (body.map (fun i => i.opCode))[pc]? = some (body[pc].opCode) := by
        rw [List.getElem?_map, List.getElem?_eq_getElem hlt]
        rfl
      have hdropOps : (body.map (fun i => i.opCode)).drop pc =
          body[pc].opCode :: (body.map (fun i => i.opCode)).drop (pc + 1) := by
        rw [List.drop_eq_getElem_cons (by omega), List.getElem_map]
      have hdropB : body.drop pc = body[pc] :: body.drop (pc + 1) :=
        List.drop_eq_getElem_cons hlt
      have hgetD : body.getD pc defaultIns = body[pc] := by
        rw [List.getD_eq_getElem?_getD, List.getElem?_eq_getElem hlt]
        rfl
      rw [hdropOps] at hs
      cases hcode : body[pc].opCode with
      | kReturn => rw [hcode] at hs; simp [steppableOps] at hs
      | kWrap => rw [hcode] at hs; simp [steppableOps] at hs
      | kOther m => rw [hcode] at hs; simp [steppableOps] at hs
      | kAggregate =>
        rw [hcode] at hs hop
        simp only [steppableOps] at hs
        obtain ⟨L', hL', heff⟩ := ih (pc + 1) (by omega) hs
        refine ⟨(OneKernel.aggregate, pc) :: L', ?_, fun s => ?_⟩
        · rw [replayFrom_step hop rfl, hL']
          rfl
        · rw [stepEffect_cons, hdropB, fusedRun_cons, heff, hgetD,
            @applyOne_eq_fusedDispatch S K OpCode.kAggregate OneKernel.aggregate 1 body[pc] s rfl hcode]
      | kReadAggregate =>
        rw [hcode] at hs hop
        simp only [steppableOps] at hs
        obtain ⟨L', hL', heff⟩ := ih (pc + 1) (by omega) hs
        refine ⟨(OneKernel.readAggregate, pc) :: L', ?_, fun s => ?_⟩
        · rw [replayFrom_step hop rfl, hL']
          rfl
        · rw [stepEffect_cons, hdropB, fusedRun_cons, heff, hgetD,
            @applyOne_eq_fusedDispatch S K OpCode.kReadAggregate OneKernel.readAggregate 1 body[pc] s rfl hcode]
      | kPlus_BIGINT =>
        rw [hcode] at hs hop
        simp only [steppableOps] at hs
        obtain ⟨L', hL', heff⟩ := ih (pc + 1) (by omega) hs
        refine ⟨(OneKernel.plusBigint, pc) :: L', ?_, fun s => ?_⟩
        · rw [replayFrom_step hop rfl, hL']
          rfl
        · rw [stepEffect_cons, hdropB, fusedRun_cons, heff, hgetD,
            @applyOne_eq_fusedDispatch S K OpCode.kPlus_BIGINT OneKernel.plusBigint 1 body[pc] s rfl hcode]
      | kLT_BIGINT =>
        rw [hcode] at hs hop
        simp only [steppableOps] at hs
        obtain ⟨L', hL', heff⟩ := ih (pc + 1) (by omega) hs
        refine ⟨(OneKernel.ltBigint, pc) :: L', ?_, fun s => ?_⟩
        · rw [replayFrom_step hop rfl, hL']
          rfl
        · rw [stepEffect_cons, hdropB, fusedRun_cons, heff, hgetD,
            @applyOne_eq_fusedDispatch S K OpCode.kLT_BIGINT OneKernel.ltBigint 1 body[pc] s rfl hcode]
      | kFilter =>
        rw [hcode] at hs hop
        by_cases hlt1 : pc + 1 < body.length
        case neg =>
          have hdrop1 : (body.map (fun i => i.opCode)).drop (pc + 1) = [] :=
            List.drop_eq_nil_of_le (by simp; omega)
          have hdropB1 : body.drop (pc + 1) = [] :=
            List.drop_eq_nil_of_le (by omega)
          refine ⟨[(OneKernel.filter, pc)], ?_, fun s => ?_⟩
          · rw [replayFrom_step hop rfl,
              replayFrom_none (List.getElem?_eq_none (by simp; omega))]
            rfl
          · rw [stepEffect_cons, hdropB, hdropB1, fusedRun_cons, hgetD,
              @applyOne_eq_fusedDispatch S K OpCode.kFilter OneKernel.filter 2 body[pc] s rfl hcode]
            rfl
        case pos =>
          have hdrop1 : (body.map (fun i => i.opCode)).drop (pc + 1) =
              body[pc + 1].opCode :: (body.map (fun i => i.opCode)).drop (pc + 2) := by
            rw [List.drop_eq_getElem_cons (by simp; omega), List.getElem_map]
          have hdropB1 : body.drop (pc + 1) = body[pc + 1] :: body.drop (pc + 2) :=
            List.drop_eq_getElem_cons hlt1
          rw [hdrop1] at hs
          simp only [steppableOps, Bool.and_eq_true] at hs
          obtain ⟨hnoop, hs2⟩ := hs
          obtain ⟨L', hL', heff⟩ := ih (pc + 2) (by omega) hs2
          refine ⟨(OneKernel.filter, pc) :: L', ?_, fun s => ?_⟩
          · rw [replayFrom_step hop rfl, hL']
            rfl
          · rw [stepEffect_cons, hdropB, hdropB1, fusedRun_cons, fusedRun_cons,
              heff, hgetD, @applyOne_eq_fusedDispatch S K OpCode.kFilter OneKernel.filter 2 body[pc] s rfl hcode,
              fusedDispatch_noop K body[pc + 1] _ hnoop]

/-! ## Grid-level lemmas for the stepping driver -/

/-- Block `b` belongs to group `g`'s contiguous block range exactly when
`b / bpe = g`. -/
theorem div_range_iff {bpe : Nat} (hbpe : 0 < bpe) (b g : Nat) :
    b / bpe = g ↔ g * bpe ≤ b ∧ b < g * bpe + bpe := by
  constructor
  · intro h
    subst h
    have hm : bpe * (b / bpe) + b % bpe = b := Nat.div_add_mod b bpe
    have hmod : b % bpe < bpe := Nat.mod_lt b hbpe
    refine ⟨Nat.div_mul_le_self b bpe, ?_⟩
    have hx : b < bpe * (b / bpe) + bpe := by
      conv_lhs => rw [← hm]
      exact Nat.add_lt_add_left hmod _
    rw [Nat.mul_comm] at hx
    exact hx
  · intro h
    have hle : g ≤ b / bpe := (Nat.le_div_iff_mul_le hbpe).mpr h.1
    have hlt : b / bpe < g + 1 := by
      rw [Nat.div_lt_iff_lt_mul hbpe, Nat.succ_mul]
      omega
    omega

/-- Pointwise description of one group's launch list applied to the grid:
blocks in the group's range fold the launches over their own program's
instructions; all other blocks are untouched. -/
theorem runLaunches_at {S : Type} (K : ExternalKernels S) (params : KernelParams)
    (base bpe : Nat) : ∀ (L : List (OneKernel × Nat)) (st : Nat → S) (b : Nat),
    runLaunches K params base bpe L st b =
      if base ≤ b ∧ b < base + bpe then
        stepEffect K (progOf params b) L (st b)
      else st b := by
  intro L
  induction L with
  | nil =>
    intro st b
    by_cases h : base ≤ b ∧ b < base + bpe
    · rw [if_pos h]; rfl
    · rw [if_neg h]; rfl
  | cons kp L ih =>
    obtain ⟨k, pc⟩ := kp
    intro st b
    have hstep : runLaunches K params base bpe ((k, pc) :: L) st =
        runLaunches K params base bpe L (launchUpdate K params k pc base bpe st) := rfl
    rw [hstep, ih]
    by_cases h : base ≤ b ∧ b < base + bpe
    · rw [if_pos h, if_pos h]
      simp only [launchUpdate, if_pos h]
      rfl
    · rw [if_neg h, if_neg h]
      simp only [launchUpdate, if_neg h]

/-- Unfolding `runGroups` at a group whose start is the `~0` sentinel:
`continue`, leaving `params.startPC` at the restored initial value. -/
theorem runGroups_cons_skip {S : Type} (K : ExternalKernels S)
    (params : KernelParams) (initial : Option (List Int)) (bpe g : Nat)
    (ops : List OpCode) (rest : List (Nat × List OpCode))
    (sp : Option (List Int)) (st : Nat → S) (tr : List Event)
    (hstart : groupStart initial g = -1) :
    runGroups K params initial bpe ((g, ops) :: rest) sp st tr =
      runGroups K params initial bpe rest initial st tr := by
  rw [runGroups]
  simp [hstart]

/-- Unfolding `runGroups` at a group with a negative non-sentinel start: the
launch loop body never runs (unsigned comparison) but `params.startPC` is
still nulled. -/
theorem runGroups_cons_neg {S : Type} (K : ExternalKernels S)
    (params : KernelParams) (initial : Option (List Int)) (bpe g : Nat)
    (ops : List OpCode) (rest : List (Nat × List OpCode))
    (sp : Option (List Int)) (st : Nat → S) (tr : List Event)
    (h1 : groupStart initial g ≠ -1) (h2 : groupStart initial g < 0) :
    runGroups K params initial bpe ((g, ops) :: rest) sp st tr =
      runGroups K params initial bpe rest none st tr := by
  rw [runGroups]
  simp [h1, h2]

/-- Unfolding `runGroups` at a group with a non-negative start: replay and
launch, then null `params.startPC`. -/
theorem runGroups_cons_run {S : Type} (K : ExternalKernels S)
    (params : KernelParams) (initial : Option (List Int)) (bpe g : Nat)
    (ops : List OpCode) (rest : List (Nat × List OpCode))
    (sp : Option (List Int)) (st : Nat → S) (tr : List Event)
    (h2 : 0 ≤ groupStart initial g) :
    runGroups K params initial bpe ((g, ops) :: rest) sp st tr =
      match replayFrom ops (groupStart initial g).toNat with
      | none => none
      | some L =>
          runGroups K params initial bpe rest none
            (runLaunches K params (g * bpe) bpe L st)
            (tr ++ L.map (fun kp => Event.launchOne kp.1 kp.2 (g * bpe))) := by
  rw [runGroups]
  have h1 : ¬ groupStart initial g = -1 := by omega
  have h3 : ¬ groupStart initial g < 0 := by omega
  simp [h1, h3]

/-- Master lemma for claim C1: with a null resume-point array (every group
starts at 0) and every group's replay succeeding, `runGroups` succeeds; the
final `startPC` is null as soon as one group exists, and each block's final
state is its own group's launch list folded over its own program. -/
theorem runGroups_none_master {S : Type} (K : ExternalKernels S)
    (params : KernelParams) (bpe : Nat) (hbpe : 0 < bpe)
    (recon : Nat → List OpCode)
    (hsucc : ∀ g, replayFrom (recon g) 0 ≠ none) :
    ∀ n, ∀ g0, ∀ sp : Option (List Int), ∀ st : Nat → S, ∀ tr : List Event,
    ∃ r, runGroups K params none bpe (groupsFrom recon g0 n) sp st tr = some r ∧
      r.startPC = (if n = 0 then sp else none) ∧
      ∀ b, r.states b =
        if g0 ≤ b / bpe ∧ b / bpe < g0 + n then
          stepEffect K (progOf params b)
            ((replayFrom (recon (b / bpe)) 0).getD []) (st b)
        else st b := by
  intro n
  induction n with
  | zero =>
    intro g0 sp st tr
    refine ⟨⟨sp, st, tr⟩, rfl, by simp, fun b => ?_⟩
    rw [if_neg (by omega)]
  | succ n ih =>
    intro g0 sp st tr
    have hg0 : groupStart none g0 = 0 := rfl
    cases h0 : replayFrom (recon g0) 0 with
    | none => exact absurd h0 (hsucc g0)
    | some L0 =>
      have hL0 : (replayFrom (recon g0) 0).getD [] = L0 := by rw [h0]; rfl
      have hcons : groupsFrom recon g0 (n + 1) =
          (g0, recon g0) :: groupsFrom recon (g0 + 1) n := rfl
      obtain ⟨r, hr, hsp, hstates⟩ := ih (g0 + 1) none
        (runLaunches K params (g0 * bpe) bpe L0 st)
        (tr ++ L0.map (fun kp => Event.launchOne kp.1 kp.2 (g0 * bpe)))
      refine ⟨r, ?_, ?_, ?_⟩
      · rw [hcons, runGroups_cons_run K params none bpe g0 (recon g0) _ sp st tr
          (by rw [hg0])]
        have htn : (groupStart none g0).toNat = 0 := rfl
        rw [htn, h0]
        exact hr
      · rw [hsp]
        by_cases hn : n = 0 <;> simp [hn]
      · intro b
        rw [hstates b, runLaunches_at]
        by_cases hc0 : b / bpe = g0
        · have hrange : g0 * bpe ≤ b ∧ b < g0 * bpe + bpe :=
            (div_range_iff hbpe b g0).mp hc0
          rw [if_neg (by omega), if_pos hrange, if_pos (by omega), hc0, hL0]
        · have hrange : ¬ (g0 * bpe ≤ b ∧ b < g0 * bpe + bpe) := fun h =>
            hc0 ((div_range_iff hbpe b g0).mpr h)
          rw [if_neg hrange]
          by_cases hc1 : g0 + 1 ≤ b / bpe ∧ b / bpe < g0 + 1 + n
          · rw [if_pos hc1, if_pos (by omega)]
          · rw [if_neg hc1, if_neg (by omega)]

/-! ## Claim C1: stepping driver vs fused interpreter -/

/-- The block-to-program assignment the stepping driver's reconstruction
assumes (spec §4.4 step 1): all programs occupy equal-sized contiguous block
ranges in ascending program order, `bpe` blocks each. -/
def canonicalIdx : Nat → Nat → List Nat
  | 0, _bpe => []
  | nP + 1, bpe => List.replicate bpe 0 ++ (canonicalIdx nP bpe).map (fun g => g + 1)

theorem canonicalIdx_length (bpe : Nat) : ∀ nP, (canonicalIdx nP bpe).length = nP * bpe := by
  intro nP
  induction nP with
  | zero => simp [canonicalIdx]
  | succ nP ih =>
    rw [canonicalIdx]
    simp only [List.length_append, List.length_replicate, List.length_map, ih]
    rw [Nat.succ_mul]
    exact Nat.add_comm bpe (nP * bpe)

theorem canonicalIdx_getElemQ {bpe : Nat} (hbpe : 0 < bpe) : ∀ nP, ∀ b, b < nP * bpe →
    (canonicalIdx nP bpe)[b]? = some (b / bpe) := by
  intro nP
  induction nP with
  | zero => intro b hb; omega
  | succ nP ih =>
    intro b hb
    rw [canonicalIdx]
    by_cases hlt : b < bpe
    · rw [List.getElem?_append_left (by simp [hlt]), List.getElem?_replicate,
        if_pos hlt, Nat.div_eq_of_lt hlt]
    · have hge : bpe ≤ b := by omega
      have hb' : b - bpe < nP * bpe := by
        rw [Nat.succ_mul] at hb
        omega
      rw [List.getElem?_append_right (by simp; omega)]
      simp only [List.length_replicate]
      rw [List.getElem?_map, ih (b - bpe) hb']
      have hdiv : (b - bpe) / bpe + 1 = b / bpe := by
        have h1 := Nat.add_div_right (b - bpe) hbpe
        rw [Nat.sub_add_cancel hge] at h1
        omega
      simp [hdiv]

theorem canonicalIdx_getD {bpe : Nat} (hbpe : 0 < bpe) (nP b : Nat)
    (hb : b < nP * bpe) : (canonicalIdx nP bpe).getD b 0 = b / bpe := by
  rw [List.getD_eq_getElem?_getD, canonicalIdx_getElemQ hbpe nP b hb]
  rfl

theorem takeWhile_replicate_zero (p : Nat → Bool) (hp : p 0 = true) :
    ∀ k, ∀ rest : List Nat,
    ((List.replicate k 0 ++ rest).takeWhile p).length = k + (rest.takeWhile p).length := by
  intro k
  induction k with
  | zero => intro rest; simp
  | succ k ih =>
    intro rest
    rw [List.replicate_succ, List.cons_append, List.takeWhile_cons, hp]
    simp [ih rest]
    omega

theorem takeWhile_all_false (p : Nat → Bool) (l : List Nat)
    (h : ∀ x ∈ l, p x = false) : l.takeWhile p = [] := by
  cases l with
  | nil => rfl
  | cons a t =>
    rw [List.takeWhile_cons, h a (by simp)]
    rfl

/-- The `blocksPerExe` scan over the canonical block assignment recovers the
per-program block count. -/
theorem blocksPerExe_canonical (nP bpe : Nat) (h1 : 0 < nP) (h2 : 0 < bpe) :
    blocksPerExe (canonicalIdx nP bpe) = bpe := by
  obtain ⟨n, rfl⟩ : ∃ n, nP = n + 1 := ⟨nP - 1, by omega⟩
  rw [canonicalIdx]
  have hhead : (List.replicate bpe 0 ++ (canonicalIdx n bpe).map (fun g => g + 1)).getD 0 0 = 0 := by
    rw [List.getD_eq_getElem?_getD, List.getElem?_append_left (by simp [h2]),
      List.getElem?_replicate, if_pos h2]
    rfl
  rw [blocksPerExe, hhead]
  rw [takeWhile_replicate_zero _ (by simp)]
  rw [takeWhile_all_false _ _ (fun x hx => ?_)]
  · simp
  · rcases List.mem_map.mp hx with ⟨y, _, rfl⟩
    simp

/-- The group loop visits exactly `nP` groups when `numBlocks = nP * bpe`. -/
theorem numGroups_exact (nP bpe : Nat) (h : 0 < bpe) :
    numGroups (nP * bpe) bpe = nP := by
  rw [numGroups, if_neg (by omega)]
  have hc := Nat.mul_comm nP bpe
  have he : nP * bpe + bpe - 1 = (bpe - 1) + bpe * nP := by omega
  rw [he, Nat.add_mul_div_left _ _ h, Nat.div_eq_of_lt (by omega)]
  omega

/-- `stepEffect` only reads the instructions at launched positions. -/
theorem stepEffect_congr {S : Type} (K : ExternalKernels S)
    (p q : List Instruction) : ∀ (L : List (OneKernel × Nat)) (s : S),
    (∀ kp ∈ L, p.getD kp.2 defaultIns = q.getD kp.2 defaultIns) →
    stepEffect K p L s = stepEffect K q L s := by
  intro L
  induction L with
  | nil => intro s _; rfl
  | cons kp L ih =>
    obtain ⟨k, pc⟩ := kp
    intro s h
    rw [stepEffect_cons, stepEffect_cons, h (k, pc) (by simp)]
    exact ih _ (fun kp hkp => h kp (List.mem_cons_of_mem _ hkp))

/-- Claim C1 (amended): for programs whose bodies the stepping driver can
dispatch — only `Filter`, `Aggregate`, `ReadAggregate`, `Plus_BIGINT`,
`LT_BIGINT` are scanned, and the slot skipped after each in-body `Filter`
holds an opcode the fused switch ignores — with the canonical equal-sized
contiguous ascending block assignment and a null `startPC`, the stepping
driver succeeds and every block ends in exactly the state the fused
interpreter produces. The per-opcode parity between each standalone kernel
and the fused switch case is `applyOne_eq_fusedDispatch`, used here. -/
theorem c1_steppingMatchesFused {S : Type} (K : ExternalKernels S)
    (nP bpe : Nat) (programs : List (List Instruction)) (st : Nat → S)
    (h1 : 0 < nP) (h2 : 0 < bpe) (h3 : programs.length = nP)
    (h4 : ∀ p ∈ programs, isReturnTerminated p = true)
    (h5 : ∀ p ∈ programs, steppableOps ((programBody p).map (fun i => i.opCode)) = true) :
    ∃ r, steppingCallOne K ⟨canonicalIdx nP bpe, programs, none⟩ st = some r ∧
      ∀ b, r.states b =
        waveBaseKernelGrid K ⟨canonicalIdx nP bpe, programs, none⟩ (nP * bpe) st b := by
  have hsucc : ∀ g, replayFrom (reconOps ⟨canonicalIdx nP bpe, programs, none⟩ g) 0 ≠ none := by
    intro g
    by_cases hg : g < nP
    · have hmem : programs.getD g [] ∈ programs := by
        rw [List.getD_eq_getElem?_getD, List.getElem?_eq_getElem (by omega)]
        exact List.getElem_mem _
      obtain ⟨L, hL, _⟩ := replay_fused_aux K (programBody (programs.getD g []))
        (programBody (programs.getD g [])).length 0 (by omega)
        (by rw [List.drop_zero]; exact h5 _ hmem)
      rw [show reconOps ⟨canonicalIdx nP bpe, programs, none⟩ g =
        (programBody (programs.getD g [])).map (fun i => i.opCode) from rfl, hL]
      exact Option.noConfusion
    · have hempty : programs.getD g [] = [] := by
        rw [List.getD_eq_getElem?_getD, List.getElem?_eq_none (by omega)]
        rfl
      rw [show reconOps ⟨canonicalIdx nP bpe, programs, none⟩ g =
        (programBody (programs.getD g [])).map (fun i => i.opCode) from rfl, hempty]
      rw [replayFrom_none (by simp [programBody])]
      exact Option.noConfusion
  obtain ⟨r, hrun, _hsp, hstates⟩ := runGroups_none_master K
    ⟨canonicalIdx nP bpe, programs, none⟩ bpe h2
    (reconOps ⟨canonicalIdx nP bpe, programs, none⟩) hsucc nP 0 none st []
  have hunfold : steppingCallOne K ⟨canonicalIdx nP bpe, programs, none⟩ st =
      runGroups K ⟨canonicalIdx nP bpe, programs, none⟩ none
        (blocksPerExe (canonicalIdx nP bpe))
        (groupsFrom (reconOps ⟨canonicalIdx nP bpe, programs, none⟩) 0
          (numGroups (canonicalIdx nP bpe).length (blocksPerExe (canonicalIdx nP bpe))))
        none st [] := rfl
  rw [blocksPerExe_canonical nP bpe h1 h2, canonicalIdx_length bpe nP,
    numGroups_exact nP bpe h2] at hunfold
  refine ⟨r, by rw [hunfold]; exact hrun, fun b => ?_⟩
  rw [hstates b]
  have hgrid : waveBaseKernelGrid K ⟨canonicalIdx nP bpe, programs, none⟩ (nP * bpe) st b =
      if b < nP * bpe then
        waveBaseKernelRun K (progOf ⟨canonicalIdx nP bpe, programs, none⟩ b) (st b)
      else st b := rfl
  rw [hgrid]
  by_cases hb : b < nP * bpe
  · have hdivlt : b / bpe < nP := (Nat.div_lt_iff_lt_mul h2).mpr hb
    have hprog : progOf ⟨canonicalIdx nP bpe, programs, none⟩ b =
        programs.getD (b / bpe) [] := by
      rw [show progOf ⟨canonicalIdx nP bpe, programs, none⟩ b =
        programs.getD ((canonicalIdx nP bpe).getD b 0) [] from rfl,
        canonicalIdx_getD h2 nP b hb]
    have hmem : programs.getD (b / bpe) [] ∈ programs := by
      rw [List.getD_eq_getElem?_getD,
        List.getElem?_eq_getElem (by rw [h3]; exact hdivlt)]
      exact List.getElem_mem _
    obtain ⟨L, hL, heff⟩ := replay_fused_aux K (programBody (programs.getD (b / bpe) []))
      (programBody (programs.getD (b / bpe) [])).length 0 (by omega)
      (by rw [List.drop_zero]; exact h5 _ hmem)
    have hrecon : reconOps ⟨canonicalIdx nP bpe, programs, none⟩ (b / bpe) =
        (programBody (programs.getD (b / bpe) [])).map (fun i => i.opCode) := rfl
    rw [if_pos ⟨Nat.zero_le _, by omega⟩, if_pos hb, hprog, hrecon, hL]
    have hgetDL : (some L).getD ([] : List (OneKernel × Nat)) = L := rfl
    rw [hgetDL]
    have hcongr : stepEffect K (programs.getD (b / bpe) []) L (st b) =
        stepEffect K (programBody (programs.getD (b / bpe) [])) L (st b) := by
      apply stepEffect_congr
      intro kp hkp
      have hbnd := replayFrom_memBounds hL kp hkp
      rw [List.length_map] at hbnd
      exact (programBody_getD _ kp.2 hbnd.2).symm
    rw [hcongr, heff (st b), List.drop_zero,
      waveRun_eq_fusedRun K _ (st b) (h4 _ hmem)]
  · have hge : nP ≤ b / bpe := (Nat.le_div_iff_mul_le h2).mpr (by omega)
    rw [if_neg (by omega), if_neg hb]

/-- Two steppable demo programs: `[Plus_BIGINT, Return]` and
`[Filter, metadata-slot, LT_BIGINT, Return]`. -/
def demoPrograms : List (List Instruction) :=
  [[⟨OpCode.kPlus_BIGINT, 7⟩, ⟨OpCode.kReturn, 0⟩],
   [⟨OpCode.kFilter, 3⟩, ⟨OpCode.kOther 9, 9⟩, ⟨OpCode.kLT_BIGINT, 4⟩,
    ⟨OpCode.kReturn, 0⟩]]

/-- Witness for C1 over two programs on two blocks each. -/
theorem c1_witness :
    ∃ r, steppingCallOne demoKernels ⟨canonicalIdx 2 2, demoPrograms, none⟩
        (fun _ => ([] : List Nat)) = some r ∧
      ∀ b, r.states b = waveBaseKernelGrid demoKernels
        ⟨canonicalIdx 2 2, demoPrograms, none⟩ (2 * 2) (fun _ => ([] : List Nat)) b :=
  c1_steppingMatchesFused demoKernels 2 2 demoPrograms (fun _ => ([] : List Nat))
    (by decide) (by decide) (by decide) (by decide) (by decide)

/-- A program containing `kWrap`: the fused interpreter executes it but the
stepping driver's switch has no `kWrap` case. -/
def wrapParams : KernelParams :=
  ⟨[0], [[⟨OpCode.kWrap, 5⟩, ⟨OpCode.kReturn, 0⟩]], none⟩

/-- Counterexample to C1 as stated: on the one-block program
`[Wrap, Return]` the fused interpreter executes the wrap kernel, while the
stepping driver hits the fatal `default: assert(false)` and produces no
result at all — the two modes do not produce identical final states for
every compiled program. -/
theorem c1_counterexample :
    steppingCallOne demoKernels wrapParams (fun _ => ([] : List Nat)) = none ∧
    waveBaseKernelGrid demoKernels wrapParams 1 (fun _ => ([] : List Nat)) 0 = [205] ∧
    ¬ ∃ r, steppingCallOne demoKernels wrapParams (fun _ => ([] : List Nat)) = some r ∧
        ∀ b, r.states b =
          waveBaseKernelGrid demoKernels wrapParams 1 (fun _ => ([] : List Nat)) b := by
  refine ⟨rfl, rfl, ?_⟩
  rintro ⟨r, hr, _⟩
  rw [show steppingCallOne demoKernels wrapParams (fun _ => ([] : List Nat)) = none
    from rfl] at hr
  exact Option.noConfusion hr

/-! ## Claim C2: host synchronization between stepping launches -/

/-- Whether an event is a `CALL_ONE` single-opcode kernel launch. -/
def isLaunchOne : Event → Bool
  | Event.launchOne _ _ _ => true
  | _ => false

/-- The property claim C2 asserts of the stepping driver's event trace:
between every two consecutive single-opcode launches there is a host-side
wait. -/
def consecutiveLaunchesSeparated (tr : List Event) : Prop :=
  ∀ j < tr.length, ∀ i < j,
    isLaunchOne (tr.getD i Event.hostWait) = true →
    isLaunchOne (tr.getD j Event.hostWait) = true →
    (∀ k < j, i < k → isLaunchOne (tr.getD k Event.hostWait) = false) →
    ∃ k < j, i < k ∧ tr.getD k Event.hostWait = Event.hostWait

/-- Every event appended to the trace by the group loop is a single-opcode
launch — `callOne` itself never blocks the host. -/
theorem runGroups_trace_launches {S : Type} (K : ExternalKernels S)
    (params : KernelParams) (initial : Option (List Int)) (bpe : Nat) :
    ∀ (l : List (Nat × List OpCode)) (sp : Option (List Int)) (st : Nat → S)
      (tr : List Event) (r : CallOneResult S),
    runGroups K params initial bpe l sp st tr = some r →
    (∀ e ∈ tr, isLaunchOne e = true) → ∀ e ∈ r.trace, isLaunchOne e = true := by
  intro l
  induction l with
  | nil =>
    intro sp st tr r h htr
    injection h with h
    subst h
    exact htr
  | cons gops rest ih =>
    obtain ⟨g, ops⟩ := gops
    intro sp st tr r h htr
    by_cases h1 : groupStart initial g = -1
    · rw [runGroups_cons_skip K params initial bpe g ops rest sp st tr h1] at h
      exact ih _ _ _ _ h htr
    · by_cases h2 : groupStart initial g < 0
      · rw [runGroups_cons_neg K params initial bpe g ops rest sp st tr h1 h2] at h
        exact ih _ _ _ _ h htr
      · rw [runGroups_cons_run K params initial bpe g ops rest sp st tr (by omega)] at h
        cases hrep : replayFrom ops (groupStart initial g).toNat with
        | none =>
          rw [hrep] at h
          exact Option.noConfusion h
        | some L =>
          rw [hrep] at h
          refine ih _ _ _ _ h ?_
          intro e he
          rcases List.mem_append.mp he with he1 | he2
          · exact htr e he1
          · rcases List.mem_map.mp he2 with ⟨kp, _, rfl⟩
            rfl

/-- Claim C2 (amended): `callOne` issues its single-opcode launches with no
host-side wait anywhere between them — its whole trace consists of launches
only — and the single host-blocking wait of stepping mode happens in `call`,
once, after `callOne` has issued everything. -/
theorem c2_noWaitBetweenLaunches {S : Type} (K : ExternalKernels S)
    (params : KernelParams) (st : Nat → S) (r : CallOneResult S)
    (h : steppingCallOne K params st = some r) :
    (∀ e ∈ r.trace, isLaunchOne e = true) ∧
    (∀ e ∈ r.trace, e ≠ Event.hostWait) ∧
    waveKernelStreamCall K true params st =
      some ⟨r.states, r.trace ++ [Event.hostWait], r.startPC⟩ := by
  have hlaunch : ∀ e ∈ r.trace, isLaunchOne e = true := by
    refine runGroups_trace_launches K params params.startPC
      (blocksPerExe params.programIdx) _ _ _ _ _ h ?_
    intro e he
    exact absurd he (List.not_mem_nil e)
  refine ⟨hlaunch, fun e he hw => ?_, ?_⟩
  · rw [hw] at he
    exact Bool.noConfusion (hlaunch _ he)
  · rw [waveKernelStreamCall, if_pos rfl, h]
    rfl

/-- Parameters for the C2 counterexample and witness: one block, one program
`[Aggregate, Plus_BIGINT, Return]` — two consecutive launches. -/
def c2Params : KernelParams :=
  ⟨[0], [[⟨OpCode.kAggregate, 1⟩, ⟨OpCode.kPlus_BIGINT, 2⟩, ⟨OpCode.kReturn, 0⟩]], none⟩

/-- The `callOne` trace for `c2Params`. -/
def c2Trace : List Event :=
  ((steppingCallOne demoKernels c2Params (fun _ => ([] : List Nat))).map
    (fun r => r.trace)).getD []

/-- Counterexample to C2 as stated: the stepping driver's trace for a
two-instruction program is two back-to-back launches with no host wait
anywhere between them. -/
theorem c2_counterexample :
    c2Trace = [Event.launchOne OneKernel.aggregate 0 0,
               Event.launchOne OneKernel.plusBigint 1 0] ∧
    ¬ consecutiveLaunchesSeparated c2Trace := by
  have ht : c2Trace = [Event.launchOne OneKernel.aggregate 0 0,
      Event.launchOne OneKernel.plusBigint 1 0] := rfl
  refine ⟨ht, ?_⟩
  rw [ht]
  intro h
  rcases h 1 (by simp) 0 (by omega) rfl rfl
    (fun k hk hik => absurd hik (by omega)) with ⟨k, hk1, hk2, _⟩
  omega

/-- Witness for C2's amended theorem at `c2Params`. -/
theorem c2_witness :
    ∃ r, steppingCallOne demoKernels c2Params (fun _ => ([] : List Nat)) = some r ∧
      (∀ e ∈ r.trace, isLaunchOne e = true) ∧
      (∀ e ∈ r.trace, e ≠ Event.hostWait) ∧
      waveKernelStreamCall demoKernels true c2Params (fun _ => ([] : List Nat)) =
        some ⟨r.states, r.trace ++ [Event.hostWait], r.startPC⟩ := by
  have hsome : (steppingCallOne demoKernels c2Params (fun _ => ([] : List Nat))).isSome
      = true := rfl
  cases hr : steppingCallOne demoKernels c2Params (fun _ => ([] : List Nat)) with
  | none => rw [hr] at hsome; exact Bool.noConfusion hsome
  | some r =>
    exact ⟨r, rfl, c2_noWaitBetweenLaunches demoKernels c2Params _ r hr⟩

/-! ## Claim C3: which program the reconstruction walks -/

/-- The group list built by `callOne` enumerates group ordinals in order. -/
theorem groupsFrom_getElemQ (recon : Nat → List OpCode) : ∀ n, ∀ g0, ∀ k, k < n →
    (groupsFrom recon g0 n)[k]? = some (g0 + k, recon (g0 + k)) := by
  intro n
  induction n with
  | zero => intro g0 k hk; omega
  | succ n ih =>
    intro g0 k hk
    cases k with
    | zero => rw [groupsFrom]; simp
    | succ k =>
      rw [groupsFrom]
      rw [List.getElem?_cons_succ, ih (g0 + 1) k (by omega)]
      have he : g0 + 1 + k = g0 + (k + 1) := by omega
      rw [he]

/-- Claim C3 (amended): group `g`'s reconstructed opcode sequence is that of
`params.programs[g]` — the group-ordinal-th program — not of the program
`programIdx` assigns to the group's blocks; the two coincide exactly when
`programIdx[g * blocksPerExe] = g`. -/
theorem c3_reconstructionUsesOrdinal (params : KernelParams) (g : Nat)
    (hg : g < numGroups params.programIdx.length (blocksPerExe params.programIdx)) :
    (groupsFrom (reconOps params) 0
      (numGroups params.programIdx.length (blocksPerExe params.programIdx)))[g]? =
      some (g, (programBody (params.programs.getD g [])).map (fun i => i.opCode)) ∧
    (params.programIdx.getD (g * blocksPerExe params.programIdx) 0 = g →
      (programBody (params.programs.getD g [])).map (fun i => i.opCode) =
      (programBody (params.programs.getD
        (params.programIdx.getD (g * blocksPerExe params.programIdx) 0) [])).map
        (fun i => i.opCode)) := by
  refine ⟨?_, fun h => by rw [h]⟩
  rw [groupsFrom_getElemQ (reconOps params) _ 0 g hg]
  simp only [Nat.zero_add]
  rfl

/-- Parameters violating C3: `programIdx = [1, 0]` assigns program 1 to block
0, but the reconstruction walks program 0 for group 0. -/
def c3Params : KernelParams :=
  ⟨[1, 0],
   [[⟨OpCode.kAggregate, 1⟩, ⟨OpCode.kReturn, 0⟩],
    [⟨OpCode.kPlus_BIGINT, 2⟩, ⟨OpCode.kReturn, 0⟩]], none⟩

/-- Counterexample to C3 as stated: for `c3Params`, group 0's reconstructed
sequence is `[Aggregate]` (program 0 by ordinal), not the `[Plus_BIGINT]` of
`params.programs[params.programIdx[0]]` that the claim names. -/
theorem c3_counterexample :
    reconOps c3Params 0 ≠
      (programBody (c3Params.programs.getD
        (c3Params.programIdx.getD (0 * blocksPerExe c3Params.programIdx) 0) [])).map
        (fun i => i.opCode) := by
  decide

/-- Parameters satisfying the coincidence condition of C3's amendment. -/
def c3GoodParams : KernelParams := ⟨canonicalIdx 2 1, demoPrograms, none⟩

/-- Witness for C3's amended theorem at group 1 of `c3GoodParams`. -/
theorem c3_witness :
    (groupsFrom (reconOps c3GoodParams) 0
      (numGroups c3GoodParams.programIdx.length (blocksPerExe c3GoodParams.programIdx)))[1]? =
      some (1, (programBody (c3GoodParams.programs.getD 1 [])).map (fun i => i.opCode)) ∧
    (c3GoodParams.programIdx.getD (1 * blocksPerExe c3GoodParams.programIdx) 0 = 1 →
      (programBody (c3GoodParams.programs.getD 1 [])).map (fun i => i.opCode) =
      (programBody (c3GoodParams.programs.getD
        (c3GoodParams.programIdx.getD (1 * blocksPerExe c3GoodParams.programIdx) 0) [])).map
        (fun i => i.opCode)) :=
  c3_reconstructionUsesOrdinal c3GoodParams 1 (by decide)

/-! ## Claims C5 and C9: sentinel skip and `startPC` mutation -/

/-- The block-range base of a launch event. -/
def eventBase : Event → Option Nat
  | Event.launchOne _ _ base => some base
  | _ => none

/-- Every trace event a `runGroups` run adds comes from a group whose start
is not the `~0` sentinel, and carries that group's block-range base. -/
theorem runGroups_trace_bases {S : Type} (K : ExternalKernels S)
    (params : KernelParams) (initial : Option (List Int)) (bpe : Nat) :
    ∀ (l : List (Nat × List OpCode)) (sp : Option (List Int)) (st : Nat → S)
      (tr : List Event) (r : CallOneResult S),
    runGroups K params initial bpe l sp st tr = some r →
    ∀ e ∈ r.trace, e ∈ tr ∨ ∃ gops ∈ l, groupStart initial gops.1 ≠ -1 ∧
      eventBase e = some (gops.1 * bpe) := by
  intro l
  induction l with
  | nil =>
    intro sp st tr r h e he
    injection h with h
    subst h
    exact Or.inl he
  | cons gops rest ih =>
    obtain ⟨g, ops⟩ := gops
    intro sp st tr r h e he
    by_cases h1 : groupStart initial g = -1
    · rw [runGroups_cons_skip K params initial bpe g ops rest sp st tr h1] at h
      rcases ih _ _ _ _ h e he with h2 | ⟨x, hx, hx1, hx2⟩
      · exact Or.inl h2
      · exact Or.inr ⟨x, List.mem_cons_of_mem _ hx, hx1, hx2⟩
    · by_cases h2 : groupStart initial g < 0
      · rw [runGroups_cons_neg K params initial bpe g ops rest sp st tr h1 h2] at h
        rcases ih _ _ _ _ h e he with h3 | ⟨x, hx, hx1, hx2⟩
        · exact Or.inl h3
        · exact Or.inr ⟨x, List.mem_cons_of_mem _ hx, hx1, hx2⟩
      · rw [runGroups_cons_run K params initial bpe g ops rest sp st tr (by omega)] at h
        cases hrep : replayFrom ops (groupStart initial g).toNat with
        | none => rw [hrep] at h; exact Option.noConfusion h
        | some L =>
          rw [hrep] at h
          rcases ih _ _ _ _ h e he with h3 | ⟨x, hx, hx1, hx2⟩
          · rcases List.mem_append.mp h3 with h4 | h4
            · exact Or.inl h4
            · rcases List.mem_map.mp h4 with ⟨kp, _, rfl⟩
              exact Or.inr ⟨(g, ops), by simp, h1, rfl⟩
          · exact Or.inr ⟨x, List.mem_cons_of_mem _ hx, hx1, hx2⟩

/-- A block belonging only to sentinel-skipped groups keeps its initial
state through a `runGroups` run. -/
theorem runGroups_states_skip {S : Type} (K : ExternalKernels S)
    (params : KernelParams) (initial : Option (List Int)) (bpe : Nat) (b : Nat) :
    ∀ (l : List (Nat × List OpCode)) (sp : Option (List Int)) (st : Nat → S)
      (tr : List Event) (r : CallOneResult S),
    runGroups K params initial bpe l sp st tr = some r →
    (∀ gops ∈ l, gops.1 * bpe ≤ b → b < gops.1 * bpe + bpe →
      groupStart initial gops.1 = -1) →
    r.states b = st b := by
  intro l
  induction l with
  | nil =>
    intro sp st tr r h _
    injection h with h
    subst h
    rfl
  | cons gops rest ih =>
    obtain ⟨g, ops⟩ := gops
    intro sp st tr r h hskip
    by_cases h1 : groupStart initial g = -1
    · rw [runGroups_cons_skip K params initial bpe g ops rest sp st tr h1] at h
      exact ih _ _ _ _ h (fun x hx => hskip x (List.mem_cons_of_mem _ hx))
    · by_cases h2 : groupStart initial g < 0
      · rw [runGroups_cons_neg K params initial bpe g ops rest sp st tr h1 h2] at h
        exact ih _ _ _ _ h (fun x hx => hskip x (List.mem_cons_of_mem _ hx))
      · rw [runGroups_cons_run K params initial bpe g ops rest sp st tr (by omega)] at h
        cases hrep : replayFrom ops (groupStart initial g).toNat with
        | none => rw [hrep] at h; exact Option.noConfusion h
        | some L =>
          rw [hrep] at h
          have hmiss : ¬ (g * bpe ≤ b ∧ b < g * bpe + bpe) := by
            intro hin
            exact h1 (hskip (g, ops) (by simp) hin.1 hin.2)
          have hrest := ih _ _ _ _ h (fun x hx => hskip x (List.mem_cons_of_mem _ hx))
          rw [hrest, runLaunches_at, if_neg hmiss]

/-- The final value of the caller's `params.startPC` after a `runGroups`
run: unchanged when no group exists; the restored initial array when the
last group was skipped via the sentinel; null otherwise. -/
theorem runGroups_finalSP {S : Type} (K : ExternalKernels S)
    (params : KernelParams) (initial : Option (List Int)) (bpe : Nat) :
    ∀ (l : List (Nat × List OpCode)) (sp : Option (List Int)) (st : Nat → S)
      (tr : List Event) (r : CallOneResult S),
    runGroups K params initial bpe l sp st tr = some r →
    r.startPC = (match l.getLast? with
      | none => sp
      | some gops => if groupStart initial gops.1 = -1 then initial else none) := by
  intro l
  induction l with
  | nil =>
    intro sp st tr r h
    injection h with h
    subst h
    rfl
  | cons gops rest ih =>
    obtain ⟨g, ops⟩ := gops
    intro sp st tr r h
    cases rest with
    | nil =>
      by_cases h1 : groupStart initial g = -1
      · rw [runGroups_cons_skip K params initial bpe g ops [] sp st tr h1] at h
        injection h with h
        subst h
        simp [h1]
      · by_cases h2 : groupStart initial g < 0
        · rw [runGroups_cons_neg K params initial bpe g ops [] sp st tr h1 h2] at h
          injection h with h
          subst h
          simp [h1]
        · rw [runGroups_cons_run K params initial bpe g ops [] sp st tr (by omega)] at h
          cases hrep : replayFrom ops (groupStart initial g).toNat with
          | none => rw [hrep] at h; exact Option.noConfusion h
          | some L =>
            rw [hrep] at h
            injection h with h
            subst h
            simp [h1]
    | cons r0 rest' =>
      have hlast : ((g, ops) :: r0 :: rest').getLast? = (r0 :: rest').getLast? :=
        List.getLast?_cons_cons ..
      cases hgl : (r0 :: rest').getLast? with
      | none => exact absurd hgl (by simp)
      | some x =>
        by_cases h1 : groupStart initial g = -1
        · rw [runGroups_cons_skip K params initial bpe g ops (r0 :: rest') sp st tr h1] at h
          rw [hlast, hgl]
          have := ih _ _ _ _ h
          rw [hgl] at this
          exact this
        · by_cases h2 : groupStart initial g < 0
          · rw [runGroups_cons_neg K params initial bpe g ops (r0 :: rest') sp st tr h1 h2] at h
            rw [hlast, hgl]
            have := ih _ _ _ _ h
            rw [hgl] at this
            exact this
          · rw [runGroups_cons_run K params initial bpe g ops (r0 :: rest') sp st tr
              (by omega)] at h
            cases hrep : replayFrom ops (groupStart initial g).toNat with
            | none => rw [hrep] at h; exact Option.noConfusion h
            | some L =>
              rw [hrep] at h
              rw [hlast, hgl]
              have := ih _ _ _ _ h
              rw [hgl] at this
              exact this

/-- The last group the loop visits is the `n-1`-th. -/
theorem groupsFrom_getLast (recon : Nat → List OpCode) : ∀ n, ∀ g0, 0 < n →
    (groupsFrom recon g0 n).getLast? = some (g0 + n - 1, recon (g0 + n - 1)) := by
  intro n
  induction n with
  | zero => intro g0 h; omega
  | succ n ih =>
    intro g0 _
    cases n with
    | zero => rfl
    | succ m =>
      have hcons : groupsFrom recon g0 (m + 1 + 1) =
          (g0, recon g0) :: (g0 + 1, recon (g0 + 1)) :: groupsFrom recon (g0 + 2) m := rfl
      have hcons2 : groupsFrom recon (g0 + 1) (m + 1) =
          (g0 + 1, recon (g0 + 1)) :: groupsFrom recon (g0 + 2) m := rfl
      rw [hcons, List.getLast?_cons_cons, ← hcons2, ih (g0 + 1) (by omega)]
      have he : g0 + 1 + (m + 1) - 1 = g0 + (m + 1 + 1) - 1 := by omega
      rw [he]

/-- Claim C5: a program whose `startPC` entry is the all-ones sentinel gets
zero device launches and its blocks' states are left untouched; and a null
`startPC` makes every program's replay start at instruction 0. -/
theorem c5_sentinelSkipsProgram {S : Type} (K : ExternalKernels S)
    (params : KernelParams) (st : Nat → S) (arr : List Int)
    (r : CallOneResult S) (g : Nat)
    (hsp : params.startPC = some arr)
    (hrun : steppingCallOne K params st = some r)
    (hbpe : 0 < blocksPerExe params.programIdx)
    (hsent : arr.getD g 0 = -1) :
    (∀ e ∈ r.trace, eventBase e ≠ some (g * blocksPerExe params.programIdx)) ∧
    (∀ b, g * blocksPerExe params.programIdx ≤ b →
      b < g * blocksPerExe params.programIdx + blocksPerExe params.programIdx →
      r.states b = st b) ∧
    (∀ g', groupStart none g' = 0) := by
  have hstart : groupStart params.startPC g = -1 := by
    rw [hsp]
    exact hsent
  have hrun' : runGroups K params params.startPC (blocksPerExe params.programIdx)
      (groupsFrom (reconOps params) 0
        (numGroups params.programIdx.length (blocksPerExe params.programIdx)))
      params.startPC st [] = some r := hrun
  refine ⟨fun e he hbase => ?_, fun b hb1 hb2 => ?_, fun _ => rfl⟩
  · rcases runGroups_trace_bases K params params.startPC _ _ _ _ _ _ hrun' e he with
      h1 | ⟨x, _, hx1, hx2⟩
    · exact absurd h1 (List.not_mem_nil e)
    · rw [hbase] at hx2
      injection hx2 with hx2
      have hxg : x.1 = g := Nat.eq_of_mul_eq_mul_right hbpe hx2.symm
      rw [hxg] at hx1
      exact hx1 hstart
  · refine runGroups_states_skip K params params.startPC _ b _ _ _ _ _ hrun'
      (fun x _ hx1 hx2 => ?_)
    have hxg : x.1 = g := by
      have hd1 : b / blocksPerExe params.programIdx = x.1 :=
        (div_range_iff hbpe b x.1).mpr ⟨hx1, hx2⟩
      have hd2 : b / blocksPerExe params.programIdx = g :=
        (div_range_iff hbpe b g).mpr ⟨hb1, hb2⟩
      omega
    rw [hxg]
    exact hstart

/-- Claim C9: `callOne` mutates the caller's `params.startPC` in place —
after a successful run with a supplied resume array, the field is null
whenever at least one group exists and the last group's resume point was not
the sentinel, and it equals the supplied array exactly when there were no
groups or the last group was skipped via the sentinel. -/
theorem c9_startPCMutation {S : Type} (K : ExternalKernels S)
    (params : KernelParams) (st : Nat → S) (arr : List Int)
    (r : CallOneResult S)
    (hsp : params.startPC = some arr)
    (hrun : steppingCallOne K params st = some r) :
    (0 < numGroups params.programIdx.length (blocksPerExe params.programIdx) →
      arr.getD (numGroups params.programIdx.length (blocksPerExe params.programIdx) - 1) 0 ≠ -1 →
      r.startPC = none) ∧
    (r.startPC = some arr ↔
      (numGroups params.programIdx.length (blocksPerExe params.programIdx) = 0 ∨
        arr.getD (numGroups params.programIdx.length (blocksPerExe params.programIdx) - 1) 0
          = -1)) := by
  have hrun' : runGroups K params params.startPC (blocksPerExe params.programIdx)
      (groupsFrom (reconOps params) 0
        (numGroups params.programIdx.length (blocksPerExe params.programIdx)))
      params.startPC st [] = some r := hrun
  have hfin := runGroups_finalSP K params params.startPC
    (blocksPerExe params.programIdx) _ _ _ _ _ hrun'
  cases hn : numGroups params.programIdx.length (blocksPerExe params.programIdx) with
  | zero =>
    rw [hn] at hfin
    rw [show groupsFrom (reconOps params) 0 0 = [] from rfl] at hfin
    simp only [List.getLast?_nil] at hfin
    rw [hfin, hsp]
    exact ⟨fun h0 => absurd h0 (by omega), by simp⟩
  | succ m =>
    rw [hn] at hfin
    rw [groupsFrom_getLast (reconOps params) (m + 1) 0 (by omega)] at hfin
    simp only at hfin
    have hgs : groupStart params.startPC (0 + (m + 1) - 1) = arr.getD (m + 1 - 1) 0 := by
      rw [hsp]
      have he : 0 + (m + 1) - 1 = m + 1 - 1 := by omega
      rw [he]
      rfl
    rw [hgs] at hfin
    by_cases hsent : arr.getD (m + 1 - 1) 0 = -1
    · rw [if_pos hsent, hsp] at hfin
      refine ⟨fun _ hne => absurd hsent hne, ?_⟩
      rw [hfin]
      have hsent' : arr[m]?.getD 0 = -1 := by
        have hx := hsent
        rw [show m + 1 - 1 = m from rfl, List.getD_eq_getElem?_getD] at hx
        exact hx
      simp [hsent']
    · rw [if_neg hsent] at hfin
      refine ⟨fun _ _ => hfin, ?_⟩
      rw [hfin]
      constructor
      · intro h
        exact absurd h (by simp)
      · intro h
        rcases h with h | h
        · omega
        · exact absurd h hsent

/-- Parameters for the C5 and C9 witnesses: two one-block programs, the
first skipped via the sentinel, the second resuming at 0. -/
def sentinelParams : KernelParams := ⟨canonicalIdx 2 1, demoPrograms, some [-1, 0]⟩

/-- Witness for C5: with `startPC = [-1, 0]`, program 0 gets no launches and
block 0's state is untouched. -/
theorem c5_witness :
    ∃ r, steppingCallOne demoKernels sentinelParams (fun _ => ([] : List Nat)) = some r ∧
      (∀ e ∈ r.trace, eventBase e ≠ some (0 * blocksPerExe sentinelParams.programIdx)) ∧
      (∀ b, 0 * blocksPerExe sentinelParams.programIdx ≤ b →
        b < 0 * blocksPerExe sentinelParams.programIdx + blocksPerExe sentinelParams.programIdx →
        r.states b = (fun _ => ([] : List Nat)) b) ∧
      (∀ g', groupStart none g' = 0) := by
  have hsome : (steppingCallOne demoKernels sentinelParams
      (fun _ => ([] : List Nat))).isSome = true := rfl
  cases hr : steppingCallOne demoKernels sentinelParams (fun _ => ([] : List Nat)) with
  | none => rw [hr] at hsome; exact Bool.noConfusion hsome
  | some r =>
    exact ⟨r, rfl, c5_sentinelSkipsProgram demoKernels sentinelParams _ [-1, 0] r 0
      rfl hr (by decide) (by decide)⟩

/-- Witness for C9: for `sentinelParams` the last of the two groups is not
skipped, so the returned `params.startPC` is null, not the supplied array. -/
theorem c9_witness :
    ∃ r, steppingCallOne demoKernels sentinelParams (fun _ => ([] : List Nat)) = some r ∧
      (0 < numGroups sentinelParams.programIdx.length (blocksPerExe sentinelParams.programIdx) →
        [(-1 : Int), 0].getD (numGroups sentinelParams.programIdx.length
          (blocksPerExe sentinelParams.programIdx) - 1) 0 ≠ -1 →
        r.startPC = none) ∧
      (r.startPC = some [(-1 : Int), 0] ↔
        (numGroups sentinelParams.programIdx.length (blocksPerExe sentinelParams.programIdx) = 0 ∨
          [(-1 : Int), 0].getD (numGroups sentinelParams.programIdx.length
            (blocksPerExe sentinelParams.programIdx) - 1) 0 = -1)) := by
  have hsome : (steppingCallOne demoKernels sentinelParams
      (fun _ => ([] : List Nat))).isSome = true := rfl
  cases hr : steppingCallOne demoKernels sentinelParams (fun _ => ([] : List Nat)) with
  | none => rw [hr] at hsome; exact Bool.noConfusion hsome
  | some r =>
    exact ⟨r, rfl, c9_startPCMutation demoKernels sentinelParams _ [(-1 : Int), 0] r
      rfl hr⟩

end Wave
